import Mathlib

/-!
Verification development for the paragraph-level streaming orchestration
engine of `src/server/server.js` (local-grammar-translate).

The JavaScript source is shallowly embedded: each JS function that the
claims touch is translated into an executable Lean definition, and the
event-driven dispatcher (`launchNext` / `emitReady` / completion handlers)
is modelled as a small-step state machine whose atomic steps correspond to
the code runs between `await` suspension points.  Machine-level aspects
(sockets, child processes, JSON parsing of model output) enter the model
as explicit inputs: the outcome of a probe, the exit code of a spawned
process, the decoded per-index payload of a model reply.
-/

namespace LGT

/-! ## JavaScript-value helpers -/

/-- Truthiness-based `a || b` on strings: the empty string is falsy. -/
def jsOrString (a b : String) : String :=
  if a = "" then b else a

/-- ASCII whitespace characters matched by the regex class `\s` and
stripped by `String.prototype.trim` (the Unicode extras of JS `\s` are
not reachable from the claims' inputs and are left out of the model). -/
def wsChar (c : Char) : Bool :=
  c = ' ' || c = '\t' || c = '\n' || c = '\r' || c = '\x0b' || c = '\x0c'

/-- Shallow embedding of JS `String.prototype.trim`: strip whitespace
from both ends. -/
def jsTrim (s : String) : String :=
  String.mk ((((s.data.dropWhile wsChar).reverse).dropWhile wsChar).reverse)

/-! ## Gateway: `runOllama` (server.js lines 382-430)

`runOllama` spawns `ollama run`, accumulates stdout into `out` and stderr
into `errBuf`, arms a timer that sets `timedOut = true` and kills the
child, and settles the promise from the `close` / `error` handlers.  The
model takes the accumulated streams and the terminal process event as
inputs and returns the promise settlement. -/

/-- Terminal event of the spawned `ollama run` process: either the child
emitted an `error` event (spawn failure), or it closed with an exit code,
with `timedOutFirst` recording whether the kill-timer fired before the
`close` event was processed. -/
inductive ProcExit where
  | errEvent (e : String)
  | closed (code : Int) (timedOutFirst : Bool)
deriving Repr, DecidableEq

/-- Settlement of the `runOllama` promise. -/
inductive RunResult where
  | resolved (text : String)
  | rejectedTimeout
  | rejectedExit (msg : String)
  | rejectedProc (e : String)
deriving Repr, DecidableEq

/-- Shallow embedding of the settlement logic of `runOllama`
(server.js lines 409-419): the `error` handler rejects with the event
error; the `close` handler rejects `ollama_run_timeout` when the timer
fired first, rejects with `errBuf || "ollama exited with <code>"` on a
non-zero exit code, and otherwise resolves with `out.trim()`. -/
def runOllamaSettle (out errBuf : String) (ev : ProcExit) : RunResult :=
  match ev with
  | .errEvent e => .rejectedProc e
  | .closed code timedOutFirst =>
      if timedOutFirst then .rejectedTimeout
      else if code ≠ 0 then
        .rejectedExit (jsOrString errBuf ("ollama exited with " ++ toString code))
      else .resolved (jsTrim out)

/-! ## Availability Monitor: `startOllamaServe` / `ensureOllamaRunning`
(server.js lines 341-380) -/

/-- Environment for one `ensureOllamaRunning` call.  Each field is the
outcome of one externally-determined event of the call:
`probeOk` is the result of the initial `isOllamaReachable()` probe;
`childAlive` is whether `ollamaProc && !ollamaProc.killed` held (a child
we previously launched is still remembered); `hostLocal` is
`isLocalHost(CONFIG.OLLAMA_HOST)`; `spawnOk` is whether the
`spawn("ollama", ["serve"], ...)` call succeeded rather than threw;
`waitOk` is the result of the `waitForReachable()` polling loop. -/
structure MonitorEnv where
  probeOk : Bool
  childAlive : Bool
  hostLocal : Bool
  spawnOk : Bool
  waitOk : Bool
deriving Repr, DecidableEq

/-- Observable behaviour of one `ensureOllamaRunning` call: the returned
record plus which side effects were attempted. -/
structure MonitorOutcome where
  reachable : Bool
  started : Bool
  /-- Whether `startOllamaServe` was invoked at all. -/
  startCalled : Bool
  /-- Whether a `spawn` of `ollama serve` was actually attempted. -/
  spawnAttempted : Bool
  /-- Whether the `waitForReachable` polling loop was entered. -/
  waitPolled : Bool
deriving Repr, DecidableEq

/-- Shallow embedding of `startOllamaServe` (server.js lines 347-368):
returns whether a child handle was produced, and whether a `spawn` was
attempted.  A remembered live child short-circuits; a non-local host
returns `null` without spawning; a throwing `spawn` is caught and yields
`null`. -/
def startOllamaServe (env : MonitorEnv) : Bool × Bool :=
  if env.childAlive then (true, false)
  else if ¬ env.hostLocal then (false, false)
  else if env.spawnOk then (true, true)
  else (false, true)

/-- Shallow embedding of `ensureOllamaRunning` (server.js lines 370-380).
`maybeStart` is the caller's argument, `autostart` is
`CONFIG.OLLAMA_AUTOSTART`.  The function is total: every control path
returns a record, so no exception propagates to the caller. -/
def ensureOllamaRunning (maybeStart autostart : Bool) (env : MonitorEnv) :
    MonitorOutcome :=
  if env.probeOk then
    { reachable := true, started := false,
      startCalled := false, spawnAttempted := false, waitPolled := false }
  else if ¬ (maybeStart || autostart) then
    { reachable := false, started := false,
      startCalled := false, spawnAttempted := false, waitPolled := false }
  else
    let s := startOllamaServe env
    if ¬ s.1 then
      { reachable := false, started := false,
        startCalled := true, spawnAttempted := s.2, waitPolled := false }
    else
      { reachable := env.waitOk, started := true,
        startCalled := true, spawnAttempted := s.2, waitPolled := true }

/-- Both streaming endpoints call `ensureOllamaRunning(true)`
(server.js lines 498 and 655): the `maybeStart` argument is hard-wired to
`true`. -/
def endpointEnsureRunning (autostart : Bool) (env : MonitorEnv) :
    MonitorOutcome :=
  ensureOllamaRunning true autostart env

/-! ## Configuration normalization: `normalizeConfig` concurrency field
(server.js line 107) -/

/-- A JavaScript number: either NaN or a rational value (the values
reachable here are exact, so no floating-point rounding is involved). -/
inductive JNum where
  | nan
  | val (q : ℚ)
deriving Repr, DecidableEq

/-- A raw configuration field value, as far as `Number()` conversion is
concerned: absent-or-falsy (`undefined`, `null`, `0`, `""`, `false`,
`NaN` — all short-circuited by `|| 2`), a truthy numeric value, or a
truthy non-numeric value (such as the string `"abc"`) whose `Number()`
conversion is NaN. -/
inductive RawConfigVal where
  | absentOrFalsy
  | numV (q : ℚ)
  | nonNumeric
deriving Repr, DecidableEq

/-- JavaScript `Math.max(1, x)`: NaN-propagating. -/
def jsMaxOne : JNum → JNum
  | .nan => .nan
  | .val q => .val (max 1 q)

/-- Shallow embedding of
`out.OLLAMA_CONCURRENCY = Math.max(1, Number((raw && raw.OLLAMA_CONCURRENCY) || 2))`
(server.js line 107).  A falsy raw value (including the number `0`) falls
back to `2`; a truthy numeric value passes through `Number` unchanged; a
truthy non-numeric value converts to NaN, which `Math.max` propagates. -/
def normalizeConcurrency (raw : RawConfigVal) : JNum :=
  match raw with
  | .absentOrFalsy => jsMaxOne (.val 2)
  | .numV q => if q = 0 then jsMaxOne (.val 2) else jsMaxOne (.val q)
  | .nonNumeric => jsMaxOne .nan

/-! ## Chunking: `chunkTranslationItems` (server.js lines 194-220) -/

/-- A translation item: a paragraph with its zero-based index
(`items = paragraphs.map((para, index) => ({index, text: para.trim()}))`,
server.js lines 674-677). -/
structure TItem where
  index : Nat
  text : String
deriving Repr, DecidableEq

/-- Chunking limits, as produced by `normalizeChunkOptions`: `maxChars = 0`
encodes "no character limit" (`charLimit = Infinity`, server.js line 196). -/
structure ChunkOpts where
  maxParagraphs : Nat
  maxChars : Nat
deriving Repr, DecidableEq

/-- Cumulative character count of a chunk (JS `item.text.length` summed). -/
def chunkChars (c : List TItem) : Nat :=
  (c.map (fun it => it.text.length)).sum

/-- JS `charLimit !== Infinity && current.length > 0 && charCount + len > charLimit`
(server.js line 205); `charLimit = none` models Infinity. -/
def exceedsCharsB (charLimit : Option Nat) (curLen charCount len : Nat) : Bool :=
  match charLimit with
  | none => false
  | some L => decide (curLen > 0) && decide (charCount + len > L)

/-- Loop body of `chunkTranslationItems`: processes the remaining items
given the accumulated `chunks`, the open chunk `current` and its running
`charCount`.  `limitP` is `Math.max(1, maxParagraphs || 1)`; `charLimit`
is `none` for Infinity. -/
def chunkLoop (limitP : Nat) (charLimit : Option Nat) :
    List TItem → List (List TItem) → List TItem → Nat → List (List TItem)
  | [], chunks, current, _ =>
      if current.length > 0 then chunks ++ [current] else chunks
  | item :: rest, chunks, current, charCount =>
      let len := item.text.length
      if (decide (current.length ≥ limitP)
            || exceedsCharsB charLimit current.length charCount len)
          && decide (current.length > 0) then
        chunkLoop limitP charLimit rest (chunks ++ [current]) [item] len
      else
        chunkLoop limitP charLimit rest chunks (current ++ [item]) (charCount + len)

/-- Shallow embedding of `chunkTranslationItems(items, opts)`
(server.js lines 194-220). -/
def chunkTranslationItems (items : List TItem) (opts : ChunkOpts) :
    List (List TItem) :=
  let charLimit : Option Nat := if opts.maxChars > 0 then some opts.maxChars else none
  let limitP := max 1 opts.maxParagraphs
  chunkLoop limitP charLimit items [] [] 0

/-! ## Segmenter: `text.split(/\n\s*\n+/).filter(Boolean)`
(server.js lines 495 and 646) -/

/-- Index of the last `'\n'` in a character list, if any. -/
def lastNl : List Char → Option Nat
  | [] => none
  | c :: rest =>
      match lastNl rest with
      | some j => some (j + 1)
      | none => if c = '\n' then some 0 else none

/-- Match of the regex `/\n\s*\n+/` at the head of `l`: `some j` means the
match has length `j + 2` (a leading `'\n'`, then the prefix of the
whitespace run up to its last `'\n'` at offset `j`).  Greedy `\s*` with
the backtracking needed for `\n+` consumes exactly up to the last newline
of the maximal whitespace run that follows the leading newline. -/
def sepMatch (l : List Char) : Option Nat :=
  match l with
  | c :: rest =>
      if c = '\n' then lastNl (rest.takeWhile wsChar) else none
  | [] => none

/-- Scanner equivalent of `String.prototype.split` with the regex
`/\n\s*\n+/`: walk the characters, cut a piece at every leftmost separator
match, and skip the matched separator. `cur` holds the current piece in
reverse.  The `fuel` argument only forces structural recursion; every
call site supplies `fuel ≥ l.length`, which makes the fuel-exhausted
branch unreachable. -/
def splitGo : Nat → List Char → List Char → List (List Char)
  | _, [], cur => [cur.reverse]
  | 0, _ :: _, cur => [cur.reverse]
  | fuel + 1, c :: rest, cur =>
      match sepMatch (c :: rest) with
      | some j => cur.reverse :: splitGo fuel ((c :: rest).drop (j + 2)) []
      | none => splitGo fuel rest (c :: cur)

/-- Shallow embedding of `text.split(/\n\s*\n+/)`. -/
def jsSplitBlank (s : String) : List String :=
  (splitGo s.data.length s.data []).map (fun l => String.mk l)

/-- Shallow embedding of `text.split(/\n\s*\n+/).filter(Boolean)`: the
paragraph list both endpoints compute (server.js lines 495 and 646). -/
def segmentParagraphs (text : String) : List String :=
  (jsSplitBlank text).filter (fun p => p ≠ "")

/-- A Unit of the data model: index plus (trimmed) paragraph text. -/
def unitsOf (text : String) : List TItem :=
  (segmentParagraphs text).enum.map (fun pr => ⟨pr.1, jsTrim pr.2⟩)

/-- A character list is free of blank-line separators when the regex
`/\n\s*\n+/` matches at none of its positions. -/
def sepFree (p : List Char) : Prop :=
  ∀ i, sepMatch (p.drop i) = none

/-- A blank-line separator as consumed by the regex `/\n\s*\n+/`: at
least two characters, starting with a newline, all whitespace, and with a
second newline after the first character. -/
def SepChunk (s : List Char) : Prop :=
  2 ≤ s.length ∧ s.head? = some '\n' ∧ (∀ c ∈ s, wsChar c = true) ∧ '\n' ∈ s.drop 1

/-- Interleave split pieces with the separators the split consumed
(`seps` is expected to be one shorter than the piece list). -/
def interleave : List (List Char) → List (List Char) → List Char
  | [], _ => []
  | p :: _, [] => p
  | p :: ps, q :: qs => p ++ q ++ interleave ps qs

/-! ## Endpoint guard phases (server.js lines 490-509 and 637-666) -/

/-- Outcome of the pre-dispatch guard phase of a streaming endpoint. -/
inductive GuardResult where
  | badRequest (body : String)
  | unavailable (errCode : String) (message : String)
  | emptyStream
  | dispatch (paragraphs : List String)
deriving Repr, DecidableEq

/-- The 503 message both endpoints build (server.js lines 502 and 659). -/
def unreachableMessage (host : String) (port : Nat) : String :=
  "Ollama is not reachable on " ++ host ++ ":" ++ toString port ++
    ". Please start Ollama (e.g., 'ollama serve') and try again."

/-- Guard phase of `POST /api/fix-stream` (server.js lines 490-509):
`text` is `req.body.text` (`none` for absent); `!text` rejects with 400;
an unreachable host after `ensureOllamaRunning(true)` rejects with 503
and error code `"ollama_unavailable"`; otherwise streaming dispatch
begins on the split paragraphs. -/
def fixStreamGuard (text : Option String) (reachable : Bool)
    (host : String) (port : Nat) : GuardResult :=
  match text with
  | none => .badRequest "No text provided."
  | some t =>
      if t = "" then .badRequest "No text provided."
      else if ¬ reachable then
        .unavailable "ollama_unavailable" (unreachableMessage host port)
      else .dispatch (segmentParagraphs t)

/-- Guard phase of `POST /api/translate-stream` (server.js lines 637-666):
a non-string body text is coerced to `""`; a blank `text.trim()` rejects
with 400; zero paragraphs end the stream empty; an unreachable host
rejects with 503 and error code `"ollama_unavailable"`. -/
def translateStreamGuard (text : Option String) (reachable : Bool)
    (host : String) (port : Nat) : GuardResult :=
  let t := text.getD ""
  if jsTrim t = "" then .badRequest "No text provided."
  else if (segmentParagraphs t).length = 0 then .emptyStream
  else if ¬ reachable then
    .unavailable "ollama_unavailable" (unreachableMessage host port)
  else .dispatch (segmentParagraphs t)

/-! ## Bounded Concurrent Dispatcher
(server.js lines 511-628 for `/api/fix-stream`,
lines 668-756 for `/api/translate-stream`)

Both endpoints run the same orchestration: a slot array `results`, the
cursors `nextToStart`/`nextChunk` and `nextToEmit`, an `inFlight`
counter, a `launchNext` loop that starts Gateway invocations while
`inFlight < CONFIG.OLLAMA_CONCURRENCY`, and per-completion handlers that
store a Result, decrement `inFlight`, run `emitReady` and re-run
`launchNext`.

The embedding is a small-step state machine.  One `completeStep` is the
atomic code that runs when one in-flight invocation settles (its
`.then`/`.catch` handler followed by its `.finally` handler): fill the
slots the task covers, remove it from the in-flight set, drain `emitReady`
and re-run `launchNext`.  JavaScript's single-threaded scheduler runs
these handlers one at a time; the only suspension point inside them is
the pacing `setTimeout(..., 10)` *after* `emitReady` has already written
the record and incremented `nextToEmit`, so interleaved handlers always
observe a consistent `nextToEmit` and the emitted sequence is the same as
in this serialized model.  The nondeterministic completion order is an
explicit schedule: each step carries the concurrency value currently in
`CONFIG` and a number picking which in-flight task settles.

A task is one Gateway invocation: for `/api/fix-stream` task `i` covers
exactly index `i`; for `/api/translate-stream` task `t` is chunk `t` and
covers the indices of its items. -/

/-- Outcome of one Gateway invocation, as seen by the completion
handlers: `ok m` is a fulfilled `runOllama` promise whose decoded
per-index payload is `m` (for `/api/translate-stream`, `m idx` is the
`byIndex` entry for `idx` after `parseTranslationPayload` and filtering;
for `/api/fix-stream`, `m i` is the corrected text); `err` is a rejected
promise (failure or timeout). -/
inductive GOutcome where
  | ok (m : Nat → Option String)
  | err

/-- Text stored in the slot for a covered index: the decoded payload
entry (`byIndex.has(idx) ? byIndex.get(idx) : ""`, server.js line 715),
or the sentinel `"(error)"` on rejection (lines 609 and 723). -/
def fillValue (o : GOutcome) (idx : Nat) : String :=
  match o with
  | .ok m => (m idx).getD ""
  | .err => "(error)"

/-- Dispatcher state: the two cursors, the in-flight task list, the slot
array (as a map from index to stored text) and the sequence of records
written to the response stream so far. -/
structure DState where
  nextTask : Nat
  nextToEmit : Nat
  inFlight : List Nat
  results : Nat → Option String
  emitted : List (Nat × String)

/-- Initial dispatcher state (server.js lines 513-516 / 680-683). -/
def initState : DState :=
  { nextTask := 0, nextToEmit := 0, inFlight := [], results := fun _ => none,
    emitted := [] }

/-- Store a completed task's texts into the uncovered slots
(`if (!results[idx])`, server.js lines 713-717; the fix-stream handler
writes a single fresh slot, which the guard leaves unchanged). -/
def fillCover (o : GOutcome) : List Nat → (Nat → Option String) → Nat → Option String
  | [], r => r
  | idx :: rest, r =>
      let r' := if (r idx).isSome then r
                else fun k => if k = idx then some (fillValue o idx) else r k
      fillCover o rest r'

/-- Body of `launchNext` (server.js lines 583-617 / 695-733): launch
tasks while `inFlight < C` and tasks remain; an empty chunk is skipped
without occupying a concurrency slot (`if (!chunk || chunk.length === 0)
continue`, line 698).  `fuel ≥ tasks.length - s.nextTask` at every call
site, which makes the fuel-exhausted branch unreachable. -/
def launchGo (C : Nat) (tasks : List (List Nat)) : Nat → DState → DState
  | 0, s => s
  | fuel + 1, s =>
      if s.inFlight.length < C ∧ s.nextTask < tasks.length then
        if (tasks.getD s.nextTask []).isEmpty then
          launchGo C tasks fuel { s with nextTask := s.nextTask + 1 }
        else
          launchGo C tasks fuel
            { s with nextTask := s.nextTask + 1,
                     inFlight := s.inFlight ++ [s.nextTask] }
      else s

/-- One `launchNext` call. -/
def launchLoop (C : Nat) (tasks : List (List Nat)) (s : DState) : DState :=
  launchGo C tasks (tasks.length - s.nextTask) s

/-- Body of `emitReady` (server.js lines 571-581 / 685-693): while the
slot at `nextToEmit` holds a Result, write it to the stream and advance
the cursor.  `fuel ≥ total - s.nextToEmit` at every call site. -/
def emitGo (total : Nat) : Nat → DState → DState
  | 0, s => s
  | fuel + 1, s =>
      if s.nextToEmit < total ∧ (s.results s.nextToEmit).isSome then
        emitGo total fuel
          { s with emitted := s.emitted ++ [(s.nextToEmit, (s.results s.nextToEmit).getD "")],
                   nextToEmit := s.nextToEmit + 1 }
      else s

/-- One `emitReady` call. -/
def emitLoop (total : Nat) (s : DState) : DState :=
  emitGo total (total - s.nextToEmit) s

/-- Settlement of one in-flight Gateway invocation: the `.then`/`.catch`
handler stores the Results for the covered indices, the `.finally`
handler decrements `inFlight`, drains `emitReady` and re-runs
`launchNext` with the concurrency value `C` read from `CONFIG` at that
moment.  `pick` selects which in-flight invocation settles (taken modulo
the in-flight count, so every schedule is a list of plain numbers);
with nothing in flight there is nothing to settle. -/
def completeStep (total : Nat) (tasks : List (List Nat)) (f : Nat → GOutcome)
    (C : Nat) (pick : Nat) (s : DState) : DState :=
  if h : s.inFlight = [] then s
  else
    let k : Fin s.inFlight.length :=
      ⟨pick % s.inFlight.length, Nat.mod_lt _ (List.length_pos.mpr h)⟩
    let t := s.inFlight.get k
    let s₁ : DState :=
      { s with results := fillCover (f t) (tasks.getD t []) s.results,
               inFlight := s.inFlight.erase t }
    launchLoop C tasks (emitLoop total s₁)

/-- A request run whose schedule also records the `CONFIG.OLLAMA_CONCURRENCY`
value current at each completion (the code re-reads `CONFIG` inside
`launchNext`, so a `POST /api/config` between completions changes the
bound used afterwards).  `C₀` is the value read by the initial
`launchNext()` call. -/
def runVar (total : Nat) (tasks : List (List Nat)) (f : Nat → GOutcome)
    (C₀ : Nat) (steps : List (Nat × Nat)) : DState :=
  steps.foldl (fun s cp => completeStep total tasks f cp.1 cp.2 s)
    (launchLoop C₀ tasks initState)

/-- A request run under a constant configuration: every completion sees
the same concurrency `C`. -/
def runD (total : Nat) (tasks : List (List Nat)) (f : Nat → GOutcome)
    (C : Nat) (picks : List Nat) : DState :=
  runVar total tasks f C (picks.map (fun p => (C, p)))

/-- All intermediate states of a constant-configuration run (the state
after the initial `launchNext` and after each completion handler). -/
def runDTrace (total : Nat) (tasks : List (List Nat)) (f : Nat → GOutcome)
    (C : Nat) (picks : List Nat) : List DState :=
  picks.scanl (fun s p => completeStep total tasks f C p s)
    (launchLoop C tasks initState)

/-! `CONFIG.OLLAMA_CONCURRENCY` is a JS number, so the launch test
`inFlight < CONFIG.OLLAMA_CONCURRENCY` (server.js lines 584 and 696)
compares the integer in-flight count against a possibly fractional or
NaN value.  The definitions below model that comparison literally; the
`Nat`-bounded model above is its image under the ceiling `natBound`
(theorem `launchGoJS_eq`), since for an integer `n` the JS test
`n < q` holds exactly when `n < ⌈q⌉`. -/

/-- JS `<` between the integer in-flight count and the JS-number
concurrency: comparisons against NaN are false. -/
def jsLtNum (n : Nat) : JNum → Bool
  | .nan => false
  | .val q => decide ((n : ℚ) < q)

/-- The effective integer launch bound of a JS-number concurrency: the
least integer at or above it (`0` for NaN and for non-positive values,
where nothing is ever launched). -/
def natBound : JNum → Nat
  | .nan => 0
  | .val q => ⌈q⌉₊

/-- Body of `launchNext` with the literal JS comparison
`inFlight < CONFIG.OLLAMA_CONCURRENCY` (server.js lines 583-617 /
695-733); otherwise identical to `launchGo`. -/
def launchGoJS (c : JNum) (tasks : List (List Nat)) : Nat → DState → DState
  | 0, s => s
  | fuel + 1, s =>
      if jsLtNum s.inFlight.length c = true ∧ s.nextTask < tasks.length then
        if (tasks.getD s.nextTask []).isEmpty then
          launchGoJS c tasks fuel { s with nextTask := s.nextTask + 1 }
        else
          launchGoJS c tasks fuel
            { s with nextTask := s.nextTask + 1,
                     inFlight := s.inFlight ++ [s.nextTask] }
      else s

/-- One `launchNext` call under the JS-number concurrency. -/
def launchLoopJS (c : JNum) (tasks : List (List Nat)) (s : DState) : DState :=
  launchGoJS c tasks (tasks.length - s.nextTask) s

/-- One completion settlement under the JS-number concurrency current at
that step; identical to `completeStep` except for the launch test. -/
def completeStepJS (total : Nat) (tasks : List (List Nat)) (f : Nat → GOutcome)
    (c : JNum) (pick : Nat) (s : DState) : DState :=
  if h : s.inFlight = [] then s
  else
    let k : Fin s.inFlight.length :=
      ⟨pick % s.inFlight.length, Nat.mod_lt _ (List.length_pos.mpr h)⟩
    let t := s.inFlight.get k
    let s₁ : DState :=
      { s with results := fillCover (f t) (tasks.getD t []) s.results,
               inFlight := s.inFlight.erase t }
    launchLoopJS c tasks (emitLoop total s₁)

/-- All intermediate states of a run under an unchanging JS-number
concurrency. -/
def runDTraceJS (total : Nat) (tasks : List (List Nat)) (f : Nat → GOutcome)
    (c : JNum) (picks : List Nat) : List DState :=
  picks.scanl (fun s p => completeStepJS total tasks f c p s)
    (launchLoopJS c tasks initState)

/-- The task list of a `/api/fix-stream` run: task `i` is paragraph `i`. -/
def singletonTasks (total : Nat) : List (List Nat) :=
  (List.range total).map (fun i => [i])

/-- The task list of a `/api/translate-stream` run: the index lists of
the chunks. -/
def chunkTasks (items : List TItem) (opts : ChunkOpts) : List (List Nat) :=
  (chunkTranslationItems items opts).map (fun c => c.map (fun it => it.index))

/-- Invariant of reachable dispatcher states: emitted records are exactly
indices `0..nextToEmit-1` in order with their stored texts; in-flight
tasks are distinct launched non-empty tasks; every launched-and-settled
task has all its covered slots filled; and every filled slot comes from a
settled task covering it, holding that task's decoded text. -/
structure DInv (total : Nat) (tasks : List (List Nat)) (f : Nat → GOutcome)
    (s : DState) : Prop where
  emitted_fst : s.emitted.map Prod.fst = List.range s.nextToEmit
  emitted_val : ∀ p ∈ s.emitted, s.results p.1 = some p.2
  emit_le : s.nextToEmit ≤ total
  task_le : s.nextTask ≤ tasks.length
  inflight_lt : ∀ t ∈ s.inFlight, t < s.nextTask
  inflight_task : ∀ t ∈ s.inFlight, tasks.getD t [] ≠ []
  inflight_nodup : s.inFlight.Nodup
  completed_filled : ∀ t, t < s.nextTask → t ∉ s.inFlight →
    ∀ idx ∈ tasks.getD t [], (s.results idx).isSome
  filled_src : ∀ idx v, s.results idx = some v →
    ∃ t, t < s.nextTask ∧ t ∉ s.inFlight ∧ idx ∈ tasks.getD t [] ∧
      v = fillValue (f t) idx

/-- After an `emitReady` drain, the slot at the emission cursor is empty
(or everything has been emitted). -/
def FrontNone (total : Nat) (s : DState) : Prop :=
  s.nextToEmit < total → s.results s.nextToEmit = none

/-- After a `launchNext` run under a positive concurrency bound, an empty
in-flight set means every task has been consumed. -/
def EmptyDone (tasks : List (List Nat)) (s : DState) : Prop :=
  s.inFlight = [] → s.nextTask = tasks.length

/-- Termination measure of a dispatcher run: unconsumed tasks count
double, in-flight tasks once; every effective completion step decreases
it. -/
def dMeasure (tasks : List (List Nat)) (s : DState) : Nat :=
  2 * (tasks.length - s.nextTask) + s.inFlight.length

/-! # Theorems -/

/-- C4: `runOllama` resolves with the trimmed accumulated stdout exactly
when the process closes with exit code 0 and the timeout has not fired;
a timeout yields the distinct timeout rejection (never a resolution with
partial output); a non-zero exit before timeout rejects with the captured
stderr text, or the generic exit-code message when stderr is empty. -/
theorem runOllama_resolution_spec (out errBuf : String) (code : Int) (timedOut : Bool) :
    (timedOut = true →
      runOllamaSettle out errBuf (.closed code timedOut) = .rejectedTimeout)
    ∧ (timedOut = false → code = 0 →
      runOllamaSettle out errBuf (.closed code timedOut) = .resolved (jsTrim out))
    ∧ (timedOut = false → code ≠ 0 →
      runOllamaSettle out errBuf (.closed code timedOut) =
        .rejectedExit (if errBuf = "" then "ollama exited with " ++ toString code else errBuf))
    ∧ (∀ v, runOllamaSettle out errBuf (.closed code timedOut) = .resolved v →
      timedOut = false ∧ code = 0 ∧ v = jsTrim out) := by
  refine ⟨?_, ?_, ?_, ?_⟩
  · intro h; simp [runOllamaSettle, h]
  · intro h h0; simp [runOllamaSettle, h, h0]
  · intro h h0; simp [runOllamaSettle, h, h0, jsOrString]
  · intro v hv
    by_cases ht : timedOut
    · simp [runOllamaSettle, ht] at hv
    · by_cases h0 : code = 0
      · refine ⟨by simp [ht], h0, ?_⟩
        simp [runOllamaSettle, ht, h0] at hv
        exact hv.symm
      · simp [runOllamaSettle, ht, h0] at hv

/-- Witness for C4: concrete evaluations of all three settlement cases. -/
theorem runOllama_resolution_spec_witness :
    runOllamaSettle "  hi " "" (.closed 0 false) = .resolved "hi"
    ∧ runOllamaSettle "x" "boom" (.closed 1 false) = .rejectedExit "boom"
    ∧ runOllamaSettle "x" "" (.closed 2 false) = .rejectedExit "ollama exited with 2"
    ∧ runOllamaSettle "x" "" (.closed 0 true) = .rejectedTimeout := by
  refine ⟨?_, ?_, ?_, ?_⟩
  · have h := (runOllama_resolution_spec "  hi " "" 0 false).2.1 rfl rfl
    rw [h]; decide
  · have h := (runOllama_resolution_spec "x" "boom" 1 false).2.2.1 rfl (by decide)
    rw [h]; decide
  · have h := (runOllama_resolution_spec "x" "" 2 false).2.2.1 rfl (by decide)
    rw [h]; decide
  · exact (runOllama_resolution_spec "x" "" 0 true).1 rfl

/-- C9: `ensureOllamaRunning` returns `{reachable: true, started: false}`
immediately when the probe succeeds; returns `{reachable: false, started:
false}` with no side effects when unreachable and neither the caller nor
the autostart flag requests a start; and swallows launch failures
(a throwing `spawn`), reporting `{reachable: false, started: false}`
instead of propagating an exception (the embedding is a total function:
every path returns a record). -/
theorem ensureOllamaRunning_spec (maybeStart autostart : Bool) (env : MonitorEnv) :
    (env.probeOk = true →
      ensureOllamaRunning maybeStart autostart env =
        { reachable := true, started := false, startCalled := false,
          spawnAttempted := false, waitPolled := false })
    ∧ (env.probeOk = false → maybeStart = false → autostart = false →
      ensureOllamaRunning maybeStart autostart env =
        { reachable := false, started := false, startCalled := false,
          spawnAttempted := false, waitPolled := false })
    ∧ (env.probeOk = false → (maybeStart || autostart) = true →
        env.childAlive = false → env.hostLocal = true → env.spawnOk = false →
      ensureOllamaRunning maybeStart autostart env =
        { reachable := false, started := false, startCalled := true,
          spawnAttempted := true, waitPolled := false }) := by
  refine ⟨?_, ?_, ?_⟩
  · intro h; simp [ensureOllamaRunning, h]
  · intro h hm ha; simp [ensureOllamaRunning, h, hm, ha]
  · intro h hor hca hl hs
    simp [ensureOllamaRunning, h, hor, startOllamaServe, hca, hl, hs]

/-- Witness for C9: all three branches at concrete environments. -/
theorem ensureOllamaRunning_spec_witness :
    ensureOllamaRunning false false ⟨true, false, true, true, true⟩ =
      { reachable := true, started := false, startCalled := false,
        spawnAttempted := false, waitPolled := false }
    ∧ ensureOllamaRunning false false ⟨false, false, true, true, true⟩ =
      { reachable := false, started := false, startCalled := false,
        spawnAttempted := false, waitPolled := false }
    ∧ ensureOllamaRunning true false ⟨false, false, true, false, true⟩ =
      { reachable := false, started := false, startCalled := true,
        spawnAttempted := true, waitPolled := false } := by
  refine ⟨?_, ?_, ?_⟩
  · exact (ensureOllamaRunning_spec false false _).1 rfl
  · exact (ensureOllamaRunning_spec false false _).2.1 rfl rfl rfl
  · exact (ensureOllamaRunning_spec true false _).2.2 rfl rfl rfl rfl rfl

/-- C10: both streaming endpoints call `ensureOllamaRunning(true)`, so the
availability check behaves identically whatever `OLLAMA_AUTOSTART` is, and
an unreachable loopback host with no remembered child triggers a spawn
attempt even with the autostart flag off. -/
theorem endpoints_force_start_spec (autostart : Bool) (env : MonitorEnv) :
    (endpointEnsureRunning autostart env = endpointEnsureRunning true env
      ∧ endpointEnsureRunning autostart env = endpointEnsureRunning false env)
    ∧ (env.probeOk = false →
        (endpointEnsureRunning false env).startCalled = true)
    ∧ (env.probeOk = false → env.childAlive = false → env.hostLocal = true →
        (endpointEnsureRunning false env).spawnAttempted = true) := by
  obtain ⟨p, ca, hl, sp, w⟩ := env
  refine ⟨⟨?_, ?_⟩, ?_, ?_⟩
  · cases autostart <;> cases p <;> cases ca <;> cases hl <;> cases sp <;> cases w <;> rfl
  · cases autostart <;> cases p <;> cases ca <;> cases hl <;> cases sp <;> cases w <;> rfl
  · intro h
    simp only at h; subst h
    cases ca <;> cases hl <;> cases sp <;> cases w <;> rfl
  · intro h hca hloc
    simp only at h hca hloc; subst h; subst hca; subst hloc
    cases sp <;> cases w <;> rfl

/-- Witness for C10: with autostart off, an unreachable local host still
gets a spawn attempt, and the result equals the autostart-on result. -/
theorem endpoints_force_start_spec_witness :
    (endpointEnsureRunning false ⟨false, false, true, true, true⟩ =
      endpointEnsureRunning true ⟨false, false, true, true, true⟩)
    ∧ (endpointEnsureRunning false ⟨false, false, true, true, true⟩).spawnAttempted = true := by
  exact ⟨(endpoints_force_start_spec false _).1.1,
    (endpoints_force_start_spec false _).2.2 rfl rfl rfl⟩

/-- Counterexample for C2: the raw configuration value `2.5` (a legal
JSON number for `OLLAMA_CONCURRENCY`) normalizes to `2.5` itself —
`Math.max(1, Number(2.5))` — which is at least 1 but is not an integer,
so the normalized concurrency is not "a positive integer" for every raw
value. -/
theorem normalizeConcurrency_counterexample :
    normalizeConcurrency (.numV (5 / 2)) = .val (5 / 2)
    ∧ ¬ (∃ n : ℤ, ((5 : ℚ) / 2) = (n : ℚ))
    ∧ (1 : ℚ) ≤ 5 / 2 := by
  refine ⟨?_, ?_, by norm_num⟩
  · have h2 : ((5 : ℚ) / 2) ≠ 0 := by norm_num
    simp [normalizeConcurrency, jsMaxOne, h2,
      max_eq_right (by norm_num : (1 : ℚ) ≤ 5 / 2)]
  · rintro ⟨n, hn⟩
    have h5 : (5 : ℚ) = 2 * (n : ℚ) := by
      field_simp at hn
      linarith
    have h5z : (5 : ℤ) = 2 * n := by exact_mod_cast h5
    omega

/-- Counterexample for C7: the 503 body's `error` field is
`"ollama_unavailable"`, not `"model_unavailable"` as the claim states. -/
theorem stream_guard_error_code_counterexample :
    fixStreamGuard (some "hi") false "127.0.0.1" 11434 =
      .unavailable "ollama_unavailable" (unreachableMessage "127.0.0.1" 11434)
    ∧ "ollama_unavailable" ≠ "model_unavailable" := by
  constructor
  · rfl
  · decide

/-- C7 (amended): both endpoints return HTTP 400 when the request text is
missing or empty before any dispatch; when the Availability Monitor
cannot establish reachability they return HTTP 503 with body
`{ error: "ollama_unavailable", message }`; and in both failure cases the
guard result is distinct from a dispatch, so no stream output is
produced. -/
theorem stream_guards_spec (reachable : Bool) (host : String) (port : Nat) :
    (fixStreamGuard none reachable host port = .badRequest "No text provided.")
    ∧ (fixStreamGuard (some "") reachable host port = .badRequest "No text provided.")
    ∧ (∀ t, t ≠ "" → fixStreamGuard (some t) false host port =
        .unavailable "ollama_unavailable" (unreachableMessage host port))
    ∧ (translateStreamGuard none reachable host port = .badRequest "No text provided.")
    ∧ (∀ t, jsTrim t = "" → translateStreamGuard (some t) reachable host port =
        .badRequest "No text provided.")
    ∧ (∀ t, jsTrim t ≠ "" → (segmentParagraphs t).length ≠ 0 →
        translateStreamGuard (some t) false host port =
          .unavailable "ollama_unavailable" (unreachableMessage host port))
    ∧ (∀ body ps, GuardResult.badRequest body ≠ GuardResult.dispatch ps
        ∧ GuardResult.unavailable "ollama_unavailable" (unreachableMessage host port)
          ≠ GuardResult.dispatch ps) := by
  refine ⟨rfl, rfl, ?_, ?_, ?_, ?_, ?_⟩
  · intro t ht
    simp [fixStreamGuard, ht]
  · simp [translateStreamGuard, jsTrim]
  · intro t ht
    simp [translateStreamGuard, ht]
  · intro t ht hps
    simp [translateStreamGuard, ht, hps]
  · intro body ps
    exact ⟨by simp, by simp⟩

/-- Witness for C7 (amended): concrete inputs through every guard case. -/
theorem stream_guards_spec_witness :
    fixStreamGuard (some "hi") false "h" 1 =
      .unavailable "ollama_unavailable" (unreachableMessage "h" 1)
    ∧ translateStreamGuard (some " ") true "h" 1 = .badRequest "No text provided."
    ∧ translateStreamGuard (some "hi") false "h" 1 =
      .unavailable "ollama_unavailable" (unreachableMessage "h" 1) := by
  refine ⟨?_, ?_, ?_⟩
  · exact (stream_guards_spec false "h" 1).2.2.1 "hi" (by decide)
  · exact (stream_guards_spec true "h" 1).2.2.2.2.1 " " (by decide)
  · exact (stream_guards_spec false "h" 1).2.2.2.2.2.1 "hi" (by decide) (by decide)

/-- Invariant of the `chunkTranslationItems` loop: the produced chunks
partition `chunks.flatten ++ current ++ rest` in order, are non-empty, never
exceed the paragraph cap, and exceed the character cap only as singleton
chunks. -/
theorem chunkLoop_spec (limitP : Nat) (charLimit : Option Nat) (hP : 1 ≤ limitP)
    (rest : List TItem) :
    ∀ chunks current charCount,
      charCount = chunkChars current →
      current.length ≤ limitP →
      (∀ L, charLimit = some L → 2 ≤ current.length → chunkChars current ≤ L) →
      (∀ c ∈ chunks, c ≠ [] ∧ c.length ≤ limitP ∧
        ∀ L, charLimit = some L → 2 ≤ c.length → chunkChars c ≤ L) →
      (chunkLoop limitP charLimit rest chunks current charCount).flatten
          = chunks.flatten ++ current ++ rest
      ∧ ∀ c ∈ chunkLoop limitP charLimit rest chunks current charCount,
          c ≠ [] ∧ c.length ≤ limitP ∧
          ∀ L, charLimit = some L → 2 ≤ c.length → chunkChars c ≤ L := by
  induction rest with
  | nil =>
      intro chunks current charCount hcc hlen hcb hch
      rcases Nat.eq_zero_or_pos current.length with hcur | hcur
      · have hc0 : current = [] := List.length_eq_zero.mp hcur
        subst hc0
        constructor
        · simp [chunkLoop]
        · intro c hc
          simp only [chunkLoop] at hc
          simp at hc
          exact hch c hc
      · constructor
        · simp [chunkLoop, hcur]
        · intro c hc
          simp only [chunkLoop] at hc
          rw [if_pos hcur] at hc
          rcases List.mem_append.mp hc with hc | hc
          · exact hch c hc
          · have hc' : c = current := by simpa using hc
            subst hc'
            exact ⟨fun he => by simp [he] at hcur, hlen, hcb⟩
  | cons item rest ih =>
      intro chunks current charCount hcc hlen hcb hch
      rcases Nat.eq_zero_or_pos current.length with hcur | hcur
      · -- current is empty: the item is appended unconditionally
        have hc0 : current = [] := List.length_eq_zero.mp hcur
        subst hc0
        have hcc0 : charCount = 0 := by simpa [chunkChars] using hcc
        subst hcc0
        have hstep : chunkLoop limitP charLimit (item :: rest) chunks [] 0
            = chunkLoop limitP charLimit rest chunks [item] item.text.length := by
          simp [chunkLoop]
        rw [hstep]
        have hres := ih chunks [item] item.text.length
          (by simp [chunkChars]) (by simpa using hP)
          (by intro L _ h2; simp at h2) hch
        refine ⟨?_, hres.2⟩
        rw [hres.1]
        simp
      · -- current is non-empty
        by_cases hclose : current.length ≥ limitP
          ∨ ∃ L, charLimit = some L ∧ charCount + item.text.length > L
        · have hcond : ((decide (current.length ≥ limitP)
              || exceedsCharsB charLimit current.length charCount item.text.length)
              && decide (current.length > 0)) = true := by
            rcases hclose with hp | ⟨L, hL, hgt⟩
            · simp [hp, hcur]
            · subst hL
              simp [exceedsCharsB, hcur, hgt]
          have hstep : chunkLoop limitP charLimit (item :: rest) chunks current charCount
              = chunkLoop limitP charLimit rest (chunks ++ [current]) [item]
                  item.text.length := by
            simp only [chunkLoop]
            rw [if_pos (by exact_mod_cast hcond)]
          rw [hstep]
          have hch' : ∀ c ∈ chunks ++ [current], c ≠ [] ∧ c.length ≤ limitP ∧
              ∀ L, charLimit = some L → 2 ≤ c.length → chunkChars c ≤ L := by
            intro c hc
            rcases List.mem_append.mp hc with hc | hc
            · exact hch c hc
            · have hc' : c = current := by simpa using hc
              subst hc'
              exact ⟨fun he => by simp [he] at hcur, hlen, hcb⟩
          have hres := ih (chunks ++ [current]) [item] item.text.length
            (by simp [chunkChars]) (by simpa using hP)
            (by intro L _ h2; simp at h2) hch'
          refine ⟨?_, hres.2⟩
          rw [hres.1]
          simp
        · push_neg at hclose
          obtain ⟨hp, hcl⟩ := hclose
          have hcond : ((decide (current.length ≥ limitP)
              || exceedsCharsB charLimit current.length charCount item.text.length)
              && decide (current.length > 0)) = false := by
            have hp' : ¬ current.length ≥ limitP := by omega
            cases hL : charLimit with
            | none => simp [exceedsCharsB, hp']
            | some L =>
                have := hcl L hL
                simp [exceedsCharsB, hp', hcur]
                omega
          have hstep : chunkLoop limitP charLimit (item :: rest) chunks current charCount
              = chunkLoop limitP charLimit rest chunks (current ++ [item])
                  (charCount + item.text.length) := by
            simp only [chunkLoop]
            rw [if_neg (by simp [hcond])]
          rw [hstep]
          have hlen' : (current ++ [item]).length ≤ limitP := by
            simp only [List.length_append, List.length_singleton]
            omega
          have hcb' : ∀ L, charLimit = some L → 2 ≤ (current ++ [item]).length →
              chunkChars (current ++ [item]) ≤ L := by
            intro L hL _
            have := hcl L hL
            have hsum : chunkChars (current ++ [item])
                = chunkChars current + item.text.length := by
              simp [chunkChars]
            omega
          have hres := ih chunks (current ++ [item]) (charCount + item.text.length)
            (by simp [chunkChars, hcc]) hlen' hcb' hch
          refine ⟨?_, hres.2⟩
          rw [hres.1]
          simp

/-- C6: `chunkTranslationItems` partitions the items in order (their
concatenation in chunk order is the original item list, so every item
lies in exactly one chunk and relative order is preserved); every chunk
is non-empty with at most `max 1 maxParagraphs` items; and whenever a
character limit is configured (`maxChars > 0`), a chunk of two or more
items has cumulative character count at most `maxChars` — only a single
oversized item alone in its chunk may exceed it. -/
theorem chunkTranslationItems_spec (items : List TItem) (opts : ChunkOpts) :
    ((chunkTranslationItems items opts).flatten = items)
    ∧ (∀ c ∈ chunkTranslationItems items opts, c ≠ [])
    ∧ (∀ c ∈ chunkTranslationItems items opts, c.length ≤ max 1 opts.maxParagraphs)
    ∧ (∀ c ∈ chunkTranslationItems items opts,
        0 < opts.maxChars → 2 ≤ c.length → chunkChars c ≤ opts.maxChars) := by
  have hres := chunkLoop_spec (max 1 opts.maxParagraphs)
    (if opts.maxChars > 0 then some opts.maxChars else none)
    (le_max_left 1 opts.maxParagraphs) items [] [] 0
    (by simp [chunkChars]) (by simp) (by intro L _ h2; simp at h2) (by intro c hc; simp at hc)
  refine ⟨?_, ?_, ?_, ?_⟩
  · have h := hres.1
    simpa [chunkTranslationItems] using h
  · intro c hc
    exact (hres.2 c (by simpa [chunkTranslationItems] using hc)).1
  · intro c hc
    exact (hres.2 c (by simpa [chunkTranslationItems] using hc)).2.1
  · intro c hc hmc h2
    exact (hres.2 c (by simpa [chunkTranslationItems] using hc)).2.2
      opts.maxChars (by simp [hmc]) h2

/-- Witness for C6: a concrete run with `maxParagraphs = 2`,
`maxChars = 3`: an oversized first item sits alone, later items group in
twos, and the chunks concatenate back to the input. -/
theorem chunkTranslationItems_spec_witness :
    (chunkTranslationItems [⟨0, "aaaa"⟩, ⟨1, "b"⟩, ⟨2, "c"⟩] ⟨2, 3⟩).flatten
      = [⟨0, "aaaa"⟩, ⟨1, "b"⟩, ⟨2, "c"⟩]
    ∧ ∀ c ∈ chunkTranslationItems [⟨0, "aaaa"⟩, ⟨1, "b"⟩, ⟨2, "c"⟩] ⟨2, 3⟩,
        c.length ≤ 2 := by
  constructor
  · exact (chunkTranslationItems_spec [⟨0, "aaaa"⟩, ⟨1, "b"⟩, ⟨2, "c"⟩] ⟨2, 3⟩).1
  · intro c hc
    have h := (chunkTranslationItems_spec [⟨0, "aaaa"⟩, ⟨1, "b"⟩, ⟨2, "c"⟩] ⟨2, 3⟩).2.2.1 c hc
    simpa using h

/-! ### Segmenter lemmas -/

/-- The last-newline index is in range and points at a newline. -/
theorem lastNl_spec (l : List Char) :
    ∀ j, lastNl l = some j → j < l.length ∧ l[j]? = some '\n' := by
  induction l with
  | nil => intro j h; simp [lastNl] at h
  | cons c rest ih =>
      intro j h
      simp only [lastNl] at h
      cases hr : lastNl rest with
      | some k =>
          rw [hr] at h
          obtain ⟨hk, hget⟩ := ih k hr
          have hj : j = k + 1 := by
            simpa using h.symm
          subst hj
          exact ⟨by simpa using Nat.succ_lt_succ hk, by simpa using hget⟩
      | none =>
          rw [hr] at h
          by_cases hc : c = '\n'
          · rw [if_pos hc] at h
            have hj : j = 0 := by simpa using h.symm
            subst hj
            simp [hc]
          · rw [if_neg hc] at h
            simp at h

/-- `lastNl` misses exactly when the list has no newline. -/
theorem lastNl_none_iff (l : List Char) : lastNl l = none ↔ '\n' ∉ l := by
  induction l with
  | nil => simp [lastNl]
  | cons c rest ih =>
      simp only [lastNl]
      cases hr : lastNl rest with
      | some k =>
          have hmem : '\n' ∈ rest := List.getElem?_mem (lastNl_spec rest k hr).2
          constructor
          · intro h; simp at h
          · intro h
            exact absurd (List.mem_cons_of_mem c hmem) h
      | none =>
          by_cases hc : c = '\n'
          · simp [hc, ih.mp hr]
          · simp [hc, Ne.symm hc]
            rw [← ih]
            simp [hr]

/-- Commuting `takeWhile` with `take`. -/
theorem takeWhile_take_comm {α : Type} (p : α → Bool) :
    ∀ (l : List α) (k : Nat), (l.take k).takeWhile p = (l.takeWhile p).take k := by
  intro l
  induction l with
  | nil => intro k; simp
  | cons a l ih =>
      intro k
      cases k with
      | zero => simp
      | succ k =>
          by_cases hp : p a
          · simp [List.take_succ_cons, List.takeWhile_cons, hp, ih]
          · simp [List.take_succ_cons, List.takeWhile_cons, hp]

/-- Truncating a list cannot create a separator match at its head. -/
theorem sepMatch_take_none (l : List Char) (k : Nat) (h : sepMatch l = none) :
    sepMatch (l.take k) = none := by
  cases l with
  | nil => simp [sepMatch, List.take_nil]
  | cons c rest =>
      cases k with
      | zero => simp [sepMatch]
      | succ k =>
          simp only [List.take_succ_cons]
          simp only [sepMatch] at h ⊢
          by_cases hc : c = '\n'
          · rw [if_pos hc] at h ⊢
            rw [lastNl_none_iff] at h ⊢
            intro hmem
            apply h
            rw [takeWhile_take_comm] at hmem
            exact List.mem_of_mem_take hmem
          · rw [if_neg hc]

/-- Pieces produced by the split scanner contain no blank-line separator:
a separator inside a piece would have been a separator in the scanned
text, where the scanner found none. -/
theorem splitGo_sepFree (fuel : Nat) :
    ∀ (l cur : List Char), l.length ≤ fuel →
    (∀ i, i < cur.length → sepMatch (cur.reverse.drop i ++ l) = none) →
    ∀ p ∈ splitGo fuel l cur, sepFree p := by
  induction fuel with
  | zero =>
      intro l cur hlen hcur p hp
      have hl : l = [] := List.length_eq_zero.mp (Nat.le_zero.mp hlen)
      subst hl
      have hp' : p = cur.reverse := by
        cases cur <;> simpa [splitGo] using hp
      subst hp'
      intro i
      by_cases hi : i < cur.length
      · have h1 := hcur i hi
        simpa using h1
      · rw [List.drop_eq_nil_of_le (by simpa using Nat.le_of_not_lt hi)]
        simp [sepMatch]
  | succ fuel ih =>
      intro l cur hlen hcur p hp
      cases l with
      | nil =>
          have hp' : p = cur.reverse := by
            cases cur <;> simpa [splitGo] using hp
          subst hp'
          intro i
          by_cases hi : i < cur.length
          · have h1 := hcur i hi
            simpa using h1
          · rw [List.drop_eq_nil_of_le (by simpa using Nat.le_of_not_lt hi)]
            simp [sepMatch]
      | cons c rest =>
          simp only [splitGo] at hp
          cases hm : sepMatch (c :: rest) with
          | some j =>
              rw [hm] at hp
              rcases List.mem_cons.mp hp with hp' | hp'
              · subst hp'
                intro i
                by_cases hi : i < cur.length
                · have h1 := hcur i hi
                  have htake : cur.reverse.drop i
                      = (cur.reverse.drop i ++ (c :: rest)).take (cur.reverse.drop i).length :=
                    (List.take_left _ _).symm
                  rw [htake]
                  exact sepMatch_take_none _ _ h1
                · rw [List.drop_eq_nil_of_le (by simpa using Nat.le_of_not_lt hi)]
                  simp [sepMatch]
              · refine ih _ [] ?_ ?_ p hp'
                · have hlen' : (c :: rest).length ≤ fuel + 1 := hlen
                  have : ((c :: rest).drop (j + 2)).length = (c :: rest).length - (j + 2) := by
                    simp
                  simp only [this]
                  simp at hlen'
                  omega
                · intro i hi; simp at hi
          | none =>
              rw [hm] at hp
              refine ih rest (c :: cur) ?_ ?_ p hp
              · have : (c :: rest).length ≤ fuel + 1 := hlen
                simp at this
                omega
              · intro i hi
                simp only [List.reverse_cons]
                by_cases hic : i < cur.length
                · have h1 := hcur i hic
                  rw [List.drop_append_of_le_length (by simpa using Nat.le_of_lt hic)]
                  rw [List.append_assoc]
                  simpa using h1
                · have hie : i = cur.length := by
                    simp at hi
                    omega
                  subst hie
                  rw [List.drop_append_of_le_length (by simp)]
                  rw [List.drop_eq_nil_of_le (by simp)]
                  simpa using hm

/-- A head separator match decomposes the text into a separator chunk
followed by the remainder the scanner continues on. -/
theorem sepMatch_decomp (l : List Char) (j : Nat) (h : sepMatch l = some j) :
    ∃ s, SepChunk s ∧ s.length = j + 2 ∧ l = s ++ l.drop (j + 2) := by
  cases l with
  | nil => simp [sepMatch] at h
  | cons c rest =>
      simp only [sepMatch] at h
      by_cases hc : c = '\n'
      · rw [if_pos hc] at h
        subst hc
        obtain ⟨hj, hget⟩ := lastNl_spec (rest.takeWhile wsChar) j h
        obtain ⟨t, ht⟩ := List.takeWhile_prefix (l := rest) wsChar
        have hrunle : (rest.takeWhile wsChar).length ≤ rest.length := by
          conv_rhs => rw [← ht]
          simp
        have htk : rest.take (j + 1) = (rest.takeWhile wsChar).take (j + 1) := by
          conv_lhs => rw [← ht]
          exact List.take_append_of_le_length (by omega)
        refine ⟨'\n' :: rest.take (j + 1), ⟨?_, ?_, ?_, ?_⟩, ?_, ?_⟩
        · simp only [List.length_cons, List.length_take]
          omega
        · rfl
        · intro x hx
          rcases List.mem_cons.mp hx with hx | hx
          · subst hx; rfl
          · rw [htk] at hx
            exact List.mem_takeWhile_imp (List.mem_of_mem_take hx)
        · simp only [List.drop_succ_cons, List.drop_zero]
          rw [htk]
          apply List.getElem?_mem (n := j)
          rw [List.getElem?_take]
          simp [Nat.lt_succ_self, hget]
        · simp only [List.length_cons, List.length_take]
          omega
        · simp only [List.drop_succ_cons]
          have hsplit : rest = rest.take (j + 1) ++ rest.drop (j + 1) :=
            (List.take_append_drop (j + 1) rest).symm
          conv_lhs => rw [hsplit]
          simp
      · rw [if_neg hc] at h
        simp at h

/-- The split scanner always yields at least one piece. -/
theorem splitGo_ne_nil (fuel : Nat) (l cur : List Char) :
    splitGo fuel l cur ≠ [] := by
  cases fuel with
  | zero => cases l <;> simp [splitGo]
  | succ fuel =>
      cases l with
      | nil => simp [splitGo]
      | cons c rest =>
          simp only [splitGo]
          cases sepMatch (c :: rest) with
          | some j => simp
          | none => exact splitGo_ne_nil fuel rest (c :: cur)

/-- Reconstruction: the scanned text is the pieces interleaved with the
separator chunks the scanner consumed, in order. -/
theorem splitGo_reconstruct (fuel : Nat) :
    ∀ (l cur : List Char), l.length ≤ fuel →
    ∃ seps, (∀ s ∈ seps, SepChunk s)
      ∧ interleave (splitGo fuel l cur) seps = cur.reverse ++ l
      ∧ seps.length + 1 = (splitGo fuel l cur).length := by
  induction fuel with
  | zero =>
      intro l cur hlen
      have hl : l = [] := List.length_eq_zero.mp (Nat.le_zero.mp hlen)
      subst hl
      exact ⟨[], by simp, by simp [splitGo, interleave], by simp [splitGo]⟩
  | succ fuel ih =>
      intro l cur hlen
      cases l with
      | nil => exact ⟨[], by simp, by simp [splitGo, interleave], by simp [splitGo]⟩
      | cons c rest =>
          cases hm : sepMatch (c :: rest) with
          | some j =>
              obtain ⟨s, hs, hslen, hdecomp⟩ := sepMatch_decomp _ _ hm
              obtain ⟨seps, hseps, hinter, hcount⟩ :=
                ih ((c :: rest).drop (j + 2)) [] (by simp at hlen ⊢; omega)
              refine ⟨s :: seps, ?_, ?_, ?_⟩
              · intro x hx
                rcases List.mem_cons.mp hx with hx | hx
                · subst hx; exact hs
                · exact hseps x hx
              · simp only [splitGo, hm]
                obtain ⟨p₀, ps, hps⟩ :=
                  List.exists_cons_of_ne_nil (splitGo_ne_nil fuel ((c :: rest).drop (j + 2)) [])
                rw [hps]
                rw [hps] at hinter
                simp only [interleave]
                simp only [List.reverse_nil, List.nil_append] at hinter
                rw [List.append_assoc, hinter, ← hdecomp]
              · simp only [splitGo, hm]
                simp only [List.length_cons]
                omega
          | none =>
              obtain ⟨seps, hseps, hinter, hcount⟩ :=
                ih rest (c :: cur) (by simp at hlen ⊢; omega)
              refine ⟨seps, hseps, ?_, ?_⟩
              · simp only [splitGo, hm]
                rw [hinter]
                simp
              · simp only [splitGo, hm]
                exact hcount

/-- Counterexample for C5: the input `" \n\nx"` splits into the pieces
`[" ", "x"]`; the whitespace-only piece `" "` is truthy, survives
`.filter(Boolean)`, and trims to the empty string, so the produced Unit
at index 0 has empty text — not every Unit's text is non-empty after
trimming. -/
theorem segmenter_counterexample :
    segmentParagraphs " \n\nx" = [" ", "x"]
    ∧ unitsOf " \n\nx" = [⟨0, ""⟩, ⟨1, "x"⟩]
    ∧ ¬ (∀ u ∈ unitsOf " \n\nx", u.text ≠ "") := by
  refine ⟨by decide, by decide, ?_⟩
  intro h
  exact h ⟨0, ""⟩ (by decide) rfl

/-- C5 (amended): the Segmenter splits on blank-line boundaries — the
input text is exactly the split pieces interleaved, in order, with
whitespace-only separator chunks that start with a newline and contain a
second newline; empty pieces are discarded before trimming, the retained
pieces contain no internal blank-line boundary and are non-empty *before*
trimming, each Unit's text is the trim of its piece, and indices are
assigned by position.  (A retained whitespace-only piece trims to the
empty string, so Unit texts can be empty after trimming.) -/
theorem segmenter_spec (text : String) :
    ((unitsOf text).map TItem.index = List.range (segmentParagraphs text).length)
    ∧ ((unitsOf text).map TItem.text = (segmentParagraphs text).map jsTrim)
    ∧ (∀ p ∈ segmentParagraphs text, p ≠ "")
    ∧ (∀ p ∈ segmentParagraphs text, sepFree p.data)
    ∧ (∃ seps, (∀ s ∈ seps, SepChunk s)
        ∧ interleave ((jsSplitBlank text).map String.data) seps = text.data
        ∧ seps.length + 1 = (jsSplitBlank text).length) := by
  refine ⟨?_, ?_, ?_, ?_, ?_⟩
  · rw [unitsOf, List.map_map]
    have : (TItem.index ∘ fun pr : Nat × String => (⟨pr.1, jsTrim pr.2⟩ : TItem))
        = Prod.fst := rfl
    rw [this, List.enum_map_fst]
  · rw [unitsOf, List.map_map]
    have h1 : (TItem.text ∘ fun pr : Nat × String => (⟨pr.1, jsTrim pr.2⟩ : TItem))
        = jsTrim ∘ Prod.snd := rfl
    rw [h1, ← List.map_map, List.enum_map_snd]
  · intro p hp
    have := List.of_mem_filter hp
    simpa using this
  · intro p hp
    have hp' : p ∈ jsSplitBlank text := List.mem_of_mem_filter hp
    obtain ⟨l, hl, hpl⟩ := List.mem_map.mp hp'
    have hdata : p.data = l := by rw [← hpl]
    rw [hdata]
    exact splitGo_sepFree text.data.length text.data [] (le_refl _)
      (by intro i hi; simp at hi) l hl
  · obtain ⟨seps, hseps, hinter, hcount⟩ :=
      splitGo_reconstruct text.data.length text.data [] (le_refl _)
    refine ⟨seps, hseps, ?_, ?_⟩
    · rw [jsSplitBlank, List.map_map]
      have : (String.data ∘ fun l : List Char => String.mk l) = id := rfl
      rw [this, List.map_id]
      simpa using hinter
    · rw [jsSplitBlank, List.length_map]
      exact hcount

/-- Witness for C5 (amended): a concrete piece of a concrete input is
non-empty and separator-free. -/
theorem segmenter_spec_witness :
    ("a" ∈ segmentParagraphs "a\n\nb" ∧ "a" ≠ "")
    ∧ unitsOf "a\n\nb" = [⟨0, "a"⟩, ⟨1, "b"⟩] := by
  refine ⟨⟨by decide, ?_⟩, by decide⟩
  exact (segmenter_spec "a\n\nb").2.2.1 "a" (by decide)

/-! ### Dispatcher lemmas -/

/-- Filled slots are never overwritten (the `if (!results[idx])` guard). -/
theorem fillCover_some (o : GOutcome) :
    ∀ (cover : List Nat) (r : Nat → Option String) (idx : Nat) (v : String),
      r idx = some v → fillCover o cover r idx = some v := by
  intro cover
  induction cover with
  | nil => intro r idx v h; exact h
  | cons a rest ih =>
      intro r idx v h
      simp only [fillCover]
      by_cases ha : (r a).isSome
      · rw [if_pos ha]
        exact ih r idx v h
      · rw [if_neg ha]
        apply ih
        by_cases hia : idx = a
        · subst hia
          rw [h] at ha
          simp at ha
        · simp [hia, h]

/-- Every covered slot is filled after the completion handler runs. -/
theorem fillCover_isSome (o : GOutcome) :
    ∀ (cover : List Nat) (r : Nat → Option String) (idx : Nat),
      idx ∈ cover → (fillCover o cover r idx).isSome := by
  intro cover
  induction cover with
  | nil => intro r idx h; simp at h
  | cons a rest ih =>
      intro r idx h
      rcases List.mem_cons.mp h with h' | h'
      · subst h'
        simp only [fillCover]
        by_cases ha : (r idx).isSome
        · rw [if_pos ha]
          obtain ⟨v, hv⟩ := Option.isSome_iff_exists.mp ha
          rw [fillCover_some o rest r idx v hv]
          rfl
        · rw [if_neg ha]
          rw [fillCover_some o rest _ idx (fillValue o idx) (by simp)]
          rfl
      · simp only [fillCover]
        by_cases ha : (r a).isSome
        · rw [if_pos ha]; exact ih r idx h'
        · rw [if_neg ha]; exact ih _ idx h'

/-- A slot filled by the completion handler either carried its value
before or holds the decoded text of a covered index. -/
theorem fillCover_src (o : GOutcome) :
    ∀ (cover : List Nat) (r : Nat → Option String) (idx : Nat) (v : String),
      fillCover o cover r idx = some v →
      r idx = some v ∨ (idx ∈ cover ∧ v = fillValue o idx) := by
  intro cover
  induction cover with
  | nil => intro r idx v h; exact Or.inl h
  | cons a rest ih =>
      intro r idx v h
      simp only [fillCover] at h
      by_cases ha : (r a).isSome
      · rw [if_pos ha] at h
        rcases ih r idx v h with h' | h'
        · exact Or.inl h'
        · exact Or.inr ⟨List.mem_cons_of_mem a h'.1, h'.2⟩
      · rw [if_neg ha] at h
        rcases ih _ idx v h with h' | h'
        · by_cases hia : idx = a
          · subst hia
            simp at h'
            exact Or.inr ⟨List.mem_cons_self idx rest, h'.symm⟩
          · simp [hia] at h'
            exact Or.inl h'
        · exact Or.inr ⟨List.mem_cons_of_mem a h'.1, h'.2⟩

/-- `launchNext` only touches the launch cursor and the in-flight set. -/
theorem launchGo_const (C : Nat) (tasks : List (List Nat)) :
    ∀ (fuel : Nat) (s : DState),
      (launchGo C tasks fuel s).results = s.results
      ∧ (launchGo C tasks fuel s).nextToEmit = s.nextToEmit
      ∧ (launchGo C tasks fuel s).emitted = s.emitted := by
  intro fuel
  induction fuel with
  | zero => intro s; exact ⟨rfl, rfl, rfl⟩
  | succ fuel ih =>
      intro s
      simp only [launchGo]
      by_cases hc : s.inFlight.length < C ∧ s.nextTask < tasks.length
      · rw [if_pos hc]
        by_cases he : (tasks.getD s.nextTask []).isEmpty
        · rw [if_pos he]; exact ih _
        · rw [if_neg he]; exact ih _
      · rw [if_neg hc]; exact ⟨rfl, rfl, rfl⟩

/-- `launchNext` preserves the dispatcher invariant. -/
theorem launchGo_inv (total : Nat) (tasks : List (List Nat)) (f : Nat → GOutcome)
    (C : Nat) :
    ∀ (fuel : Nat) (s : DState), DInv total tasks f s →
      DInv total tasks f (launchGo C tasks fuel s) := by
  intro fuel
  induction fuel with
  | zero => intro s hs; exact hs
  | succ fuel ih =>
      intro s hs
      simp only [launchGo]
      by_cases hc : s.inFlight.length < C ∧ s.nextTask < tasks.length
      · rw [if_pos hc]
        by_cases he : (tasks.getD s.nextTask []).isEmpty
        · rw [if_pos he]
          refine ih _ ⟨hs.emitted_fst, hs.emitted_val, hs.emit_le, hc.2, ?_, ?_, ?_, ?_, ?_⟩
          · intro t ht; exact Nat.lt_succ_of_lt (hs.inflight_lt t ht)
          · exact hs.inflight_task
          · exact hs.inflight_nodup
          · intro t ht hnot idx hidx
            rcases Nat.lt_succ_iff_lt_or_eq.mp ht with ht' | ht'
            · exact hs.completed_filled t ht' hnot idx hidx
            · subst ht'
              rw [List.isEmpty_iff] at he
              rw [he] at hidx
              simp at hidx
          · intro idx v hv
            obtain ⟨t, h1, h2, h3, h4⟩ := hs.filled_src idx v hv
            exact ⟨t, Nat.lt_succ_of_lt h1, h2, h3, h4⟩
        · rw [if_neg he]
          have hnewmem : s.nextTask ∉ s.inFlight := fun hmem =>
            Nat.lt_irrefl _ (hs.inflight_lt _ hmem)
          refine ih _ ⟨hs.emitted_fst, hs.emitted_val, hs.emit_le, hc.2, ?_, ?_, ?_, ?_, ?_⟩
          · intro t ht
            rcases List.mem_append.mp ht with ht' | ht'
            · exact Nat.lt_succ_of_lt (hs.inflight_lt t ht')
            · have : t = s.nextTask := by simpa using ht'
              subst this
              exact Nat.lt_succ_self _
          · intro t ht
            rcases List.mem_append.mp ht with ht' | ht'
            · exact hs.inflight_task t ht'
            · have : t = s.nextTask := by simpa using ht'
              subst this
              intro hnil
              rw [hnil] at he
              simp at he
          · rw [List.nodup_append]
            refine ⟨hs.inflight_nodup, List.nodup_singleton _, ?_⟩
            intro a ha hb
            have hab : a = s.nextTask := by simpa using hb
            subst hab
            exact hnewmem ha
          · intro t ht hnot idx hidx
            have hne : t ≠ s.nextTask := fun heq =>
              hnot (heq ▸ List.mem_append_right _ (List.mem_singleton_self _))
            have ht2 : t < s.nextTask + 1 := ht
            have ht' : t < s.nextTask := by omega
            have hnot' : t ∉ s.inFlight := fun hm =>
              hnot (List.mem_append_left _ hm)
            exact hs.completed_filled t ht' hnot' idx hidx
          · intro idx v hv
            obtain ⟨t, h1, h2, h3, h4⟩ := hs.filled_src idx v hv
            refine ⟨t, Nat.lt_succ_of_lt h1, ?_, h3, h4⟩
            intro hm
            rcases List.mem_append.mp hm with hm' | hm'
            · exact h2 hm'
            · have : t = s.nextTask := by simpa using hm'
              omega
      · rw [if_neg hc]; exact hs

/-- With a positive concurrency bound, `launchNext` drains the whole task
list before leaving the in-flight set empty. -/
theorem launchGo_exit (C : Nat) (tasks : List (List Nat)) (hC : 1 ≤ C) :
    ∀ (fuel : Nat) (s : DState), tasks.length ≤ s.nextTask + fuel →
      s.nextTask ≤ tasks.length →
      (launchGo C tasks fuel s).inFlight = [] →
      (launchGo C tasks fuel s).nextTask = tasks.length := by
  intro fuel
  induction fuel with
  | zero =>
      intro s h1 h2 _
      simp only [launchGo]
      omega
  | succ fuel ih =>
      intro s h1 h2
      simp only [launchGo]
      by_cases hc : s.inFlight.length < C ∧ s.nextTask < tasks.length
      · rw [if_pos hc]
        by_cases he : (tasks.getD s.nextTask []).isEmpty
        · rw [if_pos he]
          exact ih _ (by show tasks.length ≤ s.nextTask + 1 + fuel; omega)
            (by show s.nextTask + 1 ≤ tasks.length; omega)
        · rw [if_neg he]
          exact ih _ (by show tasks.length ≤ s.nextTask + 1 + fuel; omega)
            (by show s.nextTask + 1 ≤ tasks.length; omega)
      · rw [if_neg hc]
        intro hemp
        rw [hemp] at hc
        simp at hc
        omega

/-- `launchNext` launches only while strictly below the bound, so the
in-flight count stays below the maximum of the bound and its entry
value. -/
theorem launchGo_bound (C : Nat) (tasks : List (List Nat)) :
    ∀ (fuel : Nat) (s : DState),
      (launchGo C tasks fuel s).inFlight.length ≤ max C s.inFlight.length := by
  intro fuel
  induction fuel with
  | zero => intro s; exact le_max_right _ _
  | succ fuel ih =>
      intro s
      simp only [launchGo]
      by_cases hc : s.inFlight.length < C ∧ s.nextTask < tasks.length
      · rw [if_pos hc]
        by_cases he : (tasks.getD s.nextTask []).isEmpty
        · rw [if_pos he]; exact ih _
        · rw [if_neg he]
          refine le_trans (ih _) ?_
          simp only [List.length_append, List.length_singleton]
          have h1 : s.inFlight.length + 1 ≤ C := hc.1
          have : max C (s.inFlight.length + 1) = C := Nat.max_eq_left h1
          rw [this]
          exact le_max_left _ _
      · rw [if_neg hc]; exact le_max_right _ _

/-- `launchNext` never increases the run measure. -/
theorem launchGo_measure (C : Nat) (tasks : List (List Nat)) :
    ∀ (fuel : Nat) (s : DState),
      dMeasure tasks (launchGo C tasks fuel s) ≤ dMeasure tasks s := by
  intro fuel
  induction fuel with
  | zero => intro s; exact le_refl _
  | succ fuel ih =>
      intro s
      simp only [launchGo]
      by_cases hc : s.inFlight.length < C ∧ s.nextTask < tasks.length
      · rw [if_pos hc]
        by_cases he : (tasks.getD s.nextTask []).isEmpty
        · rw [if_pos he]
          refine le_trans (ih _) ?_
          simp only [dMeasure]
          omega
        · rw [if_neg he]
          refine le_trans (ih _) ?_
          simp only [dMeasure, List.length_append, List.length_singleton]
          omega
      · rw [if_neg hc]

/-- `emitReady` only touches the emission cursor and the emitted list. -/
theorem emitGo_const (total : Nat) :
    ∀ (fuel : Nat) (s : DState),
      (emitGo total fuel s).results = s.results
      ∧ (emitGo total fuel s).inFlight = s.inFlight
      ∧ (emitGo total fuel s).nextTask = s.nextTask := by
  intro fuel
  induction fuel with
  | zero => intro s; exact ⟨rfl, rfl, rfl⟩
  | succ fuel ih =>
      intro s
      simp only [emitGo]
      by_cases hc : s.nextToEmit < total ∧ (s.results s.nextToEmit).isSome
      · rw [if_pos hc]; exact ih _
      · rw [if_neg hc]; exact ⟨rfl, rfl, rfl⟩

/-- `emitReady` preserves the dispatcher invariant. -/
theorem emitGo_inv (total : Nat) (tasks : List (List Nat)) (f : Nat → GOutcome) :
    ∀ (fuel : Nat) (s : DState), DInv total tasks f s →
      DInv total tasks f (emitGo total fuel s) := by
  intro fuel
  induction fuel with
  | zero => intro s hs; exact hs
  | succ fuel ih =>
      intro s hs
      simp only [emitGo]
      by_cases hc : s.nextToEmit < total ∧ (s.results s.nextToEmit).isSome
      · rw [if_pos hc]
        obtain ⟨v, hv⟩ := Option.isSome_iff_exists.mp hc.2
        refine ih _ ⟨?_, ?_, hc.1, hs.task_le, hs.inflight_lt, hs.inflight_task,
          hs.inflight_nodup, hs.completed_filled, hs.filled_src⟩
        · simp only [List.map_append, hs.emitted_fst]
          simp [List.range_succ]
        · intro p hp
          rcases List.mem_append.mp hp with hp' | hp'
          · exact hs.emitted_val p hp'
          · have : p = (s.nextToEmit, (s.results s.nextToEmit).getD "") := by
              simpa using hp'
            subst this
            simp [hv]
      · rw [if_neg hc]; exact hs

/-- `emitReady` drains every ready slot: afterwards the slot at the
cursor is empty or emission is complete. -/
theorem emitGo_front (total : Nat) :
    ∀ (fuel : Nat) (s : DState), total ≤ s.nextToEmit + fuel →
      FrontNone total (emitGo total fuel s) := by
  intro fuel
  induction fuel with
  | zero =>
      intro s h
      simp only [emitGo, FrontNone]
      intro hlt
      omega
  | succ fuel ih =>
      intro s h
      simp only [emitGo]
      by_cases hc : s.nextToEmit < total ∧ (s.results s.nextToEmit).isSome
      · rw [if_pos hc]
        exact ih _ (by show total ≤ s.nextToEmit + 1 + fuel; omega)
      · rw [if_neg hc]
        intro hlt
        rcases Decidable.not_and_iff_or_not.mp hc with h' | h'
        · omega
        · exact Option.not_isSome_iff_eq_none.mp h'

/-- The fill-and-remove part of a completion handler (the `.then`/`.catch`
slot writes and the `.finally` in-flight decrement) preserves the
dispatcher invariant. -/
theorem fillErase_inv (total : Nat) (tasks : List (List Nat)) (f : Nat → GOutcome)
    (s : DState) (t : Nat) (htmem : t ∈ s.inFlight)
    (hinv : DInv total tasks f s) :
    DInv total tasks f
      { s with results := fillCover (f t) (tasks.getD t []) s.results,
               inFlight := s.inFlight.erase t } := by
  have htlt : t < s.nextTask := hinv.inflight_lt t htmem
  refine ⟨hinv.emitted_fst, ?_, hinv.emit_le, hinv.task_le, ?_, ?_, ?_, ?_, ?_⟩
  · intro p hp
    exact fillCover_some _ _ _ _ _ (hinv.emitted_val p hp)
  · intro t' ht'
    exact hinv.inflight_lt t' (List.mem_of_mem_erase ht')
  · intro t' ht'
    exact hinv.inflight_task t' (List.mem_of_mem_erase ht')
  · exact hinv.inflight_nodup.erase t
  · intro t' ht' hnot idx hidx
    by_cases hte : t' = t
    · subst hte
      exact fillCover_isSome _ _ _ _ hidx
    · have hnot' : t' ∉ s.inFlight := by
        intro hm
        exact hnot ((hinv.inflight_nodup.mem_erase_iff).mpr ⟨hte, hm⟩)
      obtain ⟨v, hv⟩ := Option.isSome_iff_exists.mp
        (hinv.completed_filled t' ht' hnot' idx hidx)
      show (fillCover (f t) (tasks.getD t []) s.results idx).isSome = true
      rw [fillCover_some _ _ _ _ _ hv]
      rfl
  · intro idx v hv
    rcases fillCover_src _ _ _ _ _ hv with h' | h'
    · obtain ⟨t'', h1, h2, h3, h4⟩ := hinv.filled_src idx v h'
      exact ⟨t'', h1, fun hm => h2 (List.mem_of_mem_erase hm), h3, h4⟩
    · refine ⟨t, htlt, ?_, h'.1, h'.2⟩
      intro hm
      exact ((hinv.inflight_nodup.mem_erase_iff).mp hm).1 rfl

/-- With something in flight, a completion step is: fill the settled
task's slots, remove it, drain `emitReady`, re-run `launchNext`. -/
theorem completeStep_eq (total : Nat) (tasks : List (List Nat)) (f : Nat → GOutcome)
    (C pick : Nat) (s : DState) (hemp : s.inFlight ≠ []) :
    ∃ t₀, t₀ ∈ s.inFlight ∧
      completeStep total tasks f C pick s =
        launchLoop C tasks (emitLoop total
          { s with results := fillCover (f t₀) (tasks.getD t₀ []) s.results,
                   inFlight := s.inFlight.erase t₀ }) := by
  refine ⟨s.inFlight.get ⟨pick % s.inFlight.length,
      Nat.mod_lt _ (List.length_pos.mpr hemp)⟩, List.get_mem _ _ _, ?_⟩
  simp only [completeStep, dif_neg hemp]

/-- Component-preservation and measure facts lifted to one `launchNext`
or `emitReady` call. -/
theorem launchLoop_const (C : Nat) (tasks : List (List Nat)) (s : DState) :
    (launchLoop C tasks s).results = s.results
    ∧ (launchLoop C tasks s).nextToEmit = s.nextToEmit
    ∧ (launchLoop C tasks s).emitted = s.emitted := by
  simp only [launchLoop]
  exact launchGo_const C tasks _ s

/-- `emitReady` leaves slots, in-flight set and launch cursor unchanged. -/
theorem emitLoop_const (total : Nat) (s : DState) :
    (emitLoop total s).results = s.results
    ∧ (emitLoop total s).inFlight = s.inFlight
    ∧ (emitLoop total s).nextTask = s.nextTask := by
  simp only [emitLoop]
  exact emitGo_const total _ s

/-- One `emitReady` call preserves the dispatcher invariant. -/
theorem emitLoop_inv (total : Nat) (tasks : List (List Nat)) (f : Nat → GOutcome)
    (s : DState) (h : DInv total tasks f s) : DInv total tasks f (emitLoop total s) := by
  simp only [emitLoop]
  exact emitGo_inv total tasks f _ s h

/-- One `emitReady` call drains every ready slot. -/
theorem emitLoop_front (total : Nat) (s : DState) : FrontNone total (emitLoop total s) := by
  simp only [emitLoop]
  exact emitGo_front total _ s (by omega)

/-- One `launchNext` call preserves the dispatcher invariant. -/
theorem launchLoop_inv (total : Nat) (tasks : List (List Nat)) (f : Nat → GOutcome)
    (C : Nat) (s : DState) (h : DInv total tasks f s) :
    DInv total tasks f (launchLoop C tasks s) := by
  simp only [launchLoop]
  exact launchGo_inv total tasks f C _ s h

/-- `launchNext` does not touch slots or the emission cursor, so it
preserves the emit-cursor property. -/
theorem FrontNone_launchLoop (total C : Nat) (tasks : List (List Nat))
    (s : DState) (h : FrontNone total s) : FrontNone total (launchLoop C tasks s) := by
  intro hlt
  have hc := launchLoop_const C tasks s
  rw [hc.2.1] at hlt
  rw [hc.1, hc.2.1]
  exact h hlt

/-- Under a positive bound, a `launchNext` fixpoint with nothing in
flight has consumed every task. -/
theorem EmptyDone_launchLoop (C : Nat) (tasks : List (List Nat)) (hC : 1 ≤ C)
    (s : DState) (htle : s.nextTask ≤ tasks.length) :
    EmptyDone tasks (launchLoop C tasks s) := by
  intro hemp
  exact launchGo_exit C tasks hC _ s (by omega) htle hemp

/-- One `launchNext` call never increases the run measure. -/
theorem launchLoop_measure (C : Nat) (tasks : List (List Nat)) (s : DState) :
    dMeasure tasks (launchLoop C tasks s) ≤ dMeasure tasks s := by
  simp only [launchLoop]
  exact launchGo_measure C tasks _ s

/-- One `emitReady` call leaves the run measure unchanged. -/
theorem emitLoop_measure (total : Nat) (tasks : List (List Nat)) (s : DState) :
    dMeasure tasks (emitLoop total s) = dMeasure tasks s := by
  have hc := emitLoop_const total s
  simp only [dMeasure]
  rw [hc.2.1, hc.2.2]

/-- One `launchNext` call keeps the in-flight count within the bound. -/
theorem launchLoop_bound (C : Nat) (tasks : List (List Nat)) (s : DState) :
    (launchLoop C tasks s).inFlight.length ≤ max C s.inFlight.length := by
  simp only [launchLoop]
  exact launchGo_bound C tasks _ s

/-- One completion step preserves the dispatcher invariant, the drained
emit cursor, and the everything-consumed-when-idle property. -/
theorem completeStep_GInv (total : Nat) (tasks : List (List Nat)) (f : Nat → GOutcome)
    (C pick : Nat) (s : DState) (hC : 1 ≤ C)
    (hinv : DInv total tasks f s) (hfront : FrontNone total s)
    (hdone : EmptyDone tasks s) :
    DInv total tasks f (completeStep total tasks f C pick s)
    ∧ FrontNone total (completeStep total tasks f C pick s)
    ∧ EmptyDone tasks (completeStep total tasks f C pick s) := by
  by_cases hemp : s.inFlight = []
  · simp only [completeStep, dif_pos hemp]
    exact ⟨hinv, hfront, hdone⟩
  · obtain ⟨t₀, hmem, hgoal⟩ := completeStep_eq total tasks f C pick s hemp
    rw [hgoal]
    have hinv₁ := fillErase_inv total tasks f s t₀ hmem hinv
    refine ⟨?_, ?_, ?_⟩
    · exact launchLoop_inv total tasks f C _ (emitLoop_inv total tasks f _ hinv₁)
    · exact FrontNone_launchLoop total C tasks _ (emitLoop_front total _)
    · apply EmptyDone_launchLoop _ _ hC
      rw [(emitLoop_const total _).2.2]
      exact hinv.task_le

/-- Each effective completion step strictly decreases the run measure. -/
theorem completeStep_measure (total : Nat) (tasks : List (List Nat))
    (f : Nat → GOutcome) (C pick : Nat) (s : DState) (hemp : s.inFlight ≠ []) :
    dMeasure tasks (completeStep total tasks f C pick s) + 1 ≤ dMeasure tasks s := by
  obtain ⟨t₀, hmem, hgoal⟩ := completeStep_eq total tasks f C pick s hemp
  rw [hgoal]
  have h1 := launchLoop_measure C tasks (emitLoop total
    { s with results := fillCover (f t₀) (tasks.getD t₀ []) s.results,
             inFlight := s.inFlight.erase t₀ })
  have h2 := emitLoop_measure total tasks
    { s with results := fillCover (f t₀) (tasks.getD t₀ []) s.results,
             inFlight := s.inFlight.erase t₀ }
  have h3 : dMeasure tasks
      ({ s with results := fillCover (f t₀) (tasks.getD t₀ []) s.results,
                inFlight := s.inFlight.erase t₀ } : DState)
      = 2 * (tasks.length - s.nextTask) + (s.inFlight.erase t₀).length := rfl
  have hlen := List.length_erase_of_mem hmem
  have hpos : 0 < s.inFlight.length := List.length_pos.mpr hemp
  have h4 : dMeasure tasks s = 2 * (tasks.length - s.nextTask) + s.inFlight.length := rfl
  omega

/-- One completion step keeps the in-flight count within the bound `C` it
reads from the configuration at that step. -/
theorem completeStep_le_max (total : Nat) (tasks : List (List Nat))
    (f : Nat → GOutcome) (C pick : Nat) (s : DState) :
    (completeStep total tasks f C pick s).inFlight.length
      ≤ max C s.inFlight.length := by
  by_cases hemp : s.inFlight = []
  · simp only [completeStep, dif_pos hemp]
    exact le_max_right _ _
  · obtain ⟨t₀, hmem, hgoal⟩ := completeStep_eq total tasks f C pick s hemp
    rw [hgoal]
    refine le_trans (launchLoop_bound C tasks _) ?_
    rw [(emitLoop_const total _).2.1]
    have hle : (s.inFlight.erase t₀).length ≤ s.inFlight.length :=
      (List.erase_sublist t₀ s.inFlight).length_le
    exact max_le_max (le_refl C) hle

/-- A completion step with nothing in flight is a no-op. -/
theorem completeStep_idle (total : Nat) (tasks : List (List Nat))
    (f : Nat → GOutcome) (C pick : Nat) (s : DState) (hemp : s.inFlight = []) :
    completeStep total tasks f C pick s = s := by
  simp only [completeStep, dif_pos hemp]

/-- Folding completion steps from a good state: once the schedule is at
least as long as the measure, the run has consumed and settled every
task. -/
theorem stepsRun_done (total : Nat) (tasks : List (List Nat)) (f : Nat → GOutcome) :
    ∀ (steps : List (Nat × Nat)) (s : DState),
      (∀ cp ∈ steps, 1 ≤ cp.1) →
      DInv total tasks f s → FrontNone total s → EmptyDone tasks s →
      dMeasure tasks s ≤ steps.length →
      DInv total tasks f
          (steps.foldl (fun s cp => completeStep total tasks f cp.1 cp.2 s) s)
        ∧ FrontNone total
          (steps.foldl (fun s cp => completeStep total tasks f cp.1 cp.2 s) s)
        ∧ (steps.foldl (fun s cp => completeStep total tasks f cp.1 cp.2 s) s).inFlight = []
        ∧ (steps.foldl (fun s cp => completeStep total tasks f cp.1 cp.2 s) s).nextTask
            = tasks.length := by
  intro steps
  induction steps with
  | nil =>
      intro s _ hinv hfront hdone hmu
      have hemp : s.inFlight = [] := by
        have : s.inFlight.length = 0 := by
          have h1 : dMeasure tasks s = 2 * (tasks.length - s.nextTask) + s.inFlight.length := rfl
          simp at hmu
          omega
        exact List.length_eq_zero.mp this
      exact ⟨hinv, hfront, hemp, hdone hemp⟩
  | cons cp steps ih =>
      intro s hCs hinv hfront hdone hmu
      simp only [List.foldl_cons]
      have hC : 1 ≤ cp.1 := hCs cp (List.mem_cons_self cp steps)
      obtain ⟨hinv', hfront', hdone'⟩ :=
        completeStep_GInv total tasks f cp.1 cp.2 s hC hinv hfront hdone
      by_cases hemp : s.inFlight = []
      · have hid := completeStep_idle total tasks f cp.1 cp.2 s hemp
        rw [hid]
        have hnt := hdone hemp
        have hmu0 : dMeasure tasks s = 0 := by
          have h1 : dMeasure tasks s = 2 * (tasks.length - s.nextTask) + s.inFlight.length := rfl
          rw [hemp, hnt] at h1
          simpa using h1
        exact ih s (fun c hc => hCs c (List.mem_cons_of_mem cp hc))
          hinv hfront hdone (by omega)
      · have hdec := completeStep_measure total tasks f cp.1 cp.2 s hemp
        refine ih _ (fun c hc => hCs c (List.mem_cons_of_mem cp hc))
          hinv' hfront' hdone' ?_
        simp only [List.length_cons] at hmu
        omega

/-- The dispatcher invariant holds of the initial state. -/
theorem initState_inv (total : Nat) (tasks : List (List Nat)) (f : Nat → GOutcome) :
    DInv total tasks f initState := by
  refine ⟨by simp [initState], ?_, ?_, ?_, ?_, ?_, ?_, ?_, ?_⟩
  · intro p hp; simp [initState] at hp
  · simp [initState]
  · simp [initState]
  · intro t ht; simp [initState] at ht
  · intro t ht; simp [initState] at ht
  · simp [initState]
  · intro t ht; simp [initState] at ht
  · intro idx v hv; simp [initState] at hv

/-- End-state of a full request run: the invariant holds, nothing is in
flight, every task was consumed and every index was emitted. -/
theorem runVar_final (total : Nat) (tasks : List (List Nat)) (f : Nat → GOutcome)
    (C₀ : Nat) (steps : List (Nat × Nat)) (hC₀ : 1 ≤ C₀)
    (hCs : ∀ cp ∈ steps, 1 ≤ cp.1) (hlen : 2 * tasks.length ≤ steps.length)
    (hjoin : tasks.flatten = List.range total) :
    DInv total tasks f (runVar total tasks f C₀ steps)
    ∧ (runVar total tasks f C₀ steps).nextToEmit = total
    ∧ (runVar total tasks f C₀ steps).inFlight = []
    ∧ (runVar total tasks f C₀ steps).nextTask = tasks.length := by
  have hinv₀ := launchLoop_inv total tasks f C₀ initState (initState_inv total tasks f)
  have hfront₀ : FrontNone total (launchLoop C₀ tasks initState) := by
    have hc := launchLoop_const C₀ tasks initState
    intro hlt
    rw [hc.1, hc.2.1]
    rfl
  have hdone₀ : EmptyDone tasks (launchLoop C₀ tasks initState) :=
    EmptyDone_launchLoop C₀ tasks hC₀ initState (by simp [initState])
  have hmu₀ : dMeasure tasks (launchLoop C₀ tasks initState) ≤ steps.length := by
    refine le_trans (launchLoop_measure C₀ tasks initState) ?_
    have h1 : dMeasure tasks initState = 2 * tasks.length := by
      simp [dMeasure, initState]
    omega
  obtain ⟨hinv, hfront, hemp, hnt⟩ :
      DInv total tasks f (runVar total tasks f C₀ steps)
      ∧ FrontNone total (runVar total tasks f C₀ steps)
      ∧ (runVar total tasks f C₀ steps).inFlight = []
      ∧ (runVar total tasks f C₀ steps).nextTask = tasks.length :=
    stepsRun_done total tasks f steps (launchLoop C₀ tasks initState)
      hCs hinv₀ hfront₀ hdone₀ hmu₀
  refine ⟨hinv, ?_, hemp, hnt⟩
  -- every index below `total` is covered by a consumed task, hence filled
  by_contra hne
  have hlt : (runVar total tasks f C₀ steps).nextToEmit < total :=
    lt_of_le_of_ne hinv.emit_le hne
  have hmem : (runVar total tasks f C₀ steps).nextToEmit ∈ tasks.flatten := by
    rw [hjoin]
    exact List.mem_range.mpr hlt
  obtain ⟨l, hl, hidxl⟩ := List.mem_flatten.mp hmem
  obtain ⟨t, hget⟩ := List.mem_iff_get.mp hl
  have htlt : t.val < tasks.length := t.isLt
  have hgetD : tasks.getD t.val [] = l := by
    rw [List.getD_eq_getElem?_getD, List.getElem?_eq_getElem htlt]
    simp [← hget]
  have hsome := hinv.completed_filled t.val (by omega) (by rw [hemp]; simp)
    _ (by rw [hgetD]; exact hidxl)
  have hnone := hfront hlt
  rw [hnone] at hsome
  simp at hsome

/-- The constant-configuration run in terms of `runVar`. -/
theorem runD_final (total : Nat) (tasks : List (List Nat)) (f : Nat → GOutcome)
    (C : Nat) (picks : List Nat) (hC : 1 ≤ C)
    (hlen : 2 * tasks.length ≤ picks.length)
    (hjoin : tasks.flatten = List.range total) :
    DInv total tasks f (runD total tasks f C picks)
    ∧ (runD total tasks f C picks).nextToEmit = total
    ∧ (runD total tasks f C picks).inFlight = []
    ∧ (runD total tasks f C picks).nextTask = tasks.length := by
  apply runVar_final total tasks f C _ hC
  · intro cp hcp
    obtain ⟨p, _, hp⟩ := List.mem_map.mp hcp
    rw [← hp]
    exact hC
  · simpa using hlen
  · exact hjoin

/-- Conversion between `getD` and `get` on the task list. -/
theorem getD_eq_get (tasks : List (List Nat)) (t : Nat) (h : t < tasks.length) :
    tasks.getD t [] = tasks.get ⟨t, h⟩ := by
  rw [List.getD_eq_getElem?_getD, List.getElem?_eq_getElem h]
  simp [List.get_eq_getElem]

/-- C1: for every request with N segmented units partitioned into tasks
(one paragraph per task for fix-stream, one chunk per task for
translate-stream) and for every completion schedule of the Gateway
invocations, the sequence of `index` values written to the Sink is
exactly `0, 1, ..., N-1`, strictly ascending, with no gaps and no
duplicates, regardless of completion order. -/
theorem dispatcher_emits_in_order (total : Nat) (tasks : List (List Nat))
    (f : Nat → GOutcome) (C : Nat) (picks : List Nat)
    (hC : 1 ≤ C) (hlen : 2 * tasks.length ≤ picks.length)
    (hjoin : tasks.flatten = List.range total) :
    (runD total tasks f C picks).emitted.map Prod.fst = List.range total := by
  obtain ⟨hinv, hemit, _, _⟩ := runD_final total tasks f C picks hC hlen hjoin
  rw [hinv.emitted_fst, hemit]

/-- Witness for C1: a chunked three-unit request whose invocations all
fail still emits exactly the indices 0, 1, 2 in order. -/
theorem dispatcher_emits_in_order_witness :
    ((1 : Nat) ≤ 2 ∧ 2 * ([[0, 1], [2]] : List (List Nat)).length ≤ 4
      ∧ ([[0, 1], [2]] : List (List Nat)).flatten = List.range 3)
    ∧ (runD 3 [[0, 1], [2]] (fun _ => GOutcome.err) 2 [0, 1, 0, 1]).emitted.map Prod.fst
        = List.range 3 := by
  refine ⟨⟨by decide, by decide, by decide⟩, ?_⟩
  exact dispatcher_emits_in_order 3 [[0, 1], [2]] (fun _ => GOutcome.err) 2 [0, 1, 0, 1]
    (by decide) (by decide) (by decide)

/-- C3: every dispatched task produces exactly one Result for each of its
covered indices whatever the Gateway outcome: the final slot for a
covered index holds that task's decoded text (the `"(error)"` sentinel on
rejection), the index is emitted exactly once with that text, and a
failing task never aborts the run — the conclusion holds for every
outcome assignment, including all-failing ones. -/
theorem dispatcher_completeness (total : Nat) (tasks : List (List Nat))
    (f : Nat → GOutcome) (C : Nat) (picks : List Nat)
    (hC : 1 ≤ C) (hlen : 2 * tasks.length ≤ picks.length)
    (hjoin : tasks.flatten = List.range total)
    (tIdx : Nat) (htIdx : tIdx < tasks.length) (idx : Nat)
    (hidx : idx ∈ tasks.getD tIdx []) :
    (runD total tasks f C picks).results idx = some (fillValue (f tIdx) idx)
    ∧ (idx, fillValue (f tIdx) idx) ∈ (runD total tasks f C picks).emitted
    ∧ ((runD total tasks f C picks).emitted.map Prod.fst).count idx = 1
    ∧ (f tIdx = GOutcome.err → fillValue (f tIdx) idx = "(error)") := by
  obtain ⟨hinv, hemit, hemp, hnt⟩ := runD_final total tasks f C picks hC hlen hjoin
  have hmemT : tasks.getD tIdx [] ∈ tasks := by
    rw [getD_eq_get tasks tIdx htIdx]
    exact List.get_mem _ _ _
  have hidxtot : idx < total := by
    have hmf : idx ∈ tasks.flatten := List.mem_flatten.mpr ⟨_, hmemT, hidx⟩
    rw [hjoin] at hmf
    exact List.mem_range.mp hmf
  have hsome := hinv.completed_filled tIdx (by omega) (by rw [hemp]; simp) idx hidx
  obtain ⟨v, hv⟩ := Option.isSome_iff_exists.mp hsome
  obtain ⟨t', h1, h2, h3, h4⟩ := hinv.filled_src idx v hv
  rw [hnt] at h1
  have hnodup : tasks.flatten.Nodup := by
    rw [hjoin]; exact List.nodup_range total
  have hpair := (List.nodup_flatten.mp hnodup).2
  have hpg := List.pairwise_iff_get.mp hpair
  have hteq : t' = tIdx := by
    by_contra hne
    rcases Nat.lt_or_ge t' tIdx with hlt' | hge
    · have hd := hpg ⟨t', by omega⟩ ⟨tIdx, htIdx⟩ hlt'
      rw [← getD_eq_get tasks t' (by omega), ← getD_eq_get tasks tIdx htIdx] at hd
      exact hd h3 hidx
    · have hlt'' : tIdx < t' := by omega
      have hd := hpg ⟨tIdx, htIdx⟩ ⟨t', by omega⟩ hlt''
      rw [← getD_eq_get tasks t' (by omega), ← getD_eq_get tasks tIdx htIdx] at hd
      exact hd hidx h3
  subst hteq
  subst h4
  refine ⟨hv, ?_, ?_, fun herr => by rw [herr]; rfl⟩
  · have hmm : idx ∈ (runD total tasks f C picks).emitted.map Prod.fst := by
      rw [hinv.emitted_fst, hemit]
      exact List.mem_range.mpr hidxtot
    obtain ⟨p, hp, hpfst⟩ := List.mem_map.mp hmm
    obtain ⟨pa, pb⟩ := p
    simp only at hpfst
    have hpv := hinv.emitted_val (pa, pb) hp
    simp only at hpv
    rw [hpfst] at hpv
    rw [hv] at hpv
    have hpb : fillValue (f t') idx = pb := Option.some.inj hpv
    rw [hpb, ← hpfst]
    exact hp
  · rw [hinv.emitted_fst, hemit]
    have hle := List.nodup_iff_count_le_one.mp (List.nodup_range total) idx
    have hpos := List.count_pos_iff.mpr (List.mem_range.mpr hidxtot)
    omega

/-- Witness for C3: in the chunked all-failing run, index 1 (covered by
task 0) ends with the error-marked Result, emitted once. -/
theorem dispatcher_completeness_witness :
    ((1 : Nat) ∈ ([[0, 1], [2]] : List (List Nat)).getD 0 [])
    ∧ (runD 3 [[0, 1], [2]] (fun _ => GOutcome.err) 2 [0, 1, 0, 1]).results 1
        = some "(error)"
    ∧ ((1 : Nat), "(error)") ∈ (runD 3 [[0, 1], [2]] (fun _ => GOutcome.err) 2 [0, 1, 0, 1]).emitted := by
  refine ⟨by decide, ?_, ?_⟩
  · exact (dispatcher_completeness 3 [[0, 1], [2]] (fun _ => GOutcome.err) 2 [0, 1, 0, 1]
      (by decide) (by decide) (by decide) 0 (by decide) 1 (by decide)).1
  · exact (dispatcher_completeness 3 [[0, 1], [2]] (fun _ => GOutcome.err) 2 [0, 1, 0, 1]
      (by decide) (by decide) (by decide) 0 (by decide) 1 (by decide)).2.1

/-- Every state along a constant-configuration run keeps the in-flight
count within the bound. -/
theorem runTrace_bound_aux (total : Nat) (tasks : List (List Nat))
    (f : Nat → GOutcome) (C : Nat) :
    ∀ (picks : List Nat) (s : DState), s.inFlight.length ≤ C →
      ∀ k, ((picks.scanl (fun s p => completeStep total tasks f C p s) s).getD k
        initState).inFlight.length ≤ C := by
  intro picks
  induction picks with
  | nil =>
      intro s hs k
      cases k with
      | zero => simpa [List.scanl] using hs
      | succ k => simp [List.scanl, initState]
  | cons p ps ih =>
      intro s hs k
      rw [List.scanl_cons]
      cases k with
      | zero => simpa using hs
      | succ k =>
          simp only [List.singleton_append, List.getD_cons_succ]
          apply ih
          refine le_trans (completeStep_le_max total tasks f C p s) ?_
          rw [Nat.max_eq_left hs]

/-- The JS launch test `inFlight < c` on an integer in-flight count holds
exactly below the ceiling of `c`. -/
theorem jsLtNum_iff_natBound (n : Nat) (c : JNum) :
    jsLtNum n c = true ↔ n < natBound c := by
  cases c with
  | nan => simp [jsLtNum, natBound]
  | val q =>
      simp only [jsLtNum, natBound, decide_eq_true_eq]
      exact Nat.lt_ceil.symm

/-- The literal-JS launch loop coincides with the `Nat`-bounded one at
the ceiling of the configured concurrency. -/
theorem launchGoJS_eq (c : JNum) (tasks : List (List Nat)) :
    ∀ (fuel : Nat) (s : DState),
      launchGoJS c tasks fuel s = launchGo (natBound c) tasks fuel s := by
  intro fuel
  induction fuel with
  | zero => intro s; rfl
  | succ fuel ih =>
      intro s
      simp only [launchGoJS, launchGo]
      have hiff := jsLtNum_iff_natBound s.inFlight.length c
      by_cases h12 : s.inFlight.length < natBound c ∧ s.nextTask < tasks.length
      · rw [if_pos (And.intro (hiff.mpr h12.1) h12.2), if_pos h12]
        by_cases he : (tasks.getD s.nextTask []).isEmpty
        · rw [if_pos he, if_pos he]; exact ih _
        · rw [if_neg he, if_neg he]; exact ih _
      · rw [if_neg (fun hc : _ ∧ _ => h12 (And.intro (hiff.mp hc.1) hc.2)),
          if_neg h12]

/-- One JS-comparison completion step coincides with the `Nat`-bounded one
at the ceiling of the configured concurrency. -/
theorem completeStepJS_eq (total : Nat) (tasks : List (List Nat))
    (f : Nat → GOutcome) (c : JNum) (pick : Nat) (s : DState) :
    completeStepJS total tasks f c pick s
      = completeStep total tasks f (natBound c) pick s := by
  by_cases hemp : s.inFlight = []
  · simp only [completeStepJS, completeStep, dif_pos hemp]
  · simp only [completeStepJS, completeStep, dif_neg hemp, launchLoopJS, launchLoop]
    exact launchGoJS_eq c tasks _ _

/-- The JS-comparison run trace coincides with the `Nat`-bounded one at
the ceiling of the configured concurrency. -/
theorem runDTraceJS_eq (total : Nat) (tasks : List (List Nat)) (f : Nat → GOutcome)
    (c : JNum) (picks : List Nat) :
    runDTraceJS total tasks f c picks
      = runDTrace total tasks f (natBound c) picks := by
  simp only [runDTraceJS, runDTrace]
  rw [show (fun (s : DState) (p : Nat) => completeStepJS total tasks f c p s)
      = (fun (s : DState) (p : Nat) => completeStep total tasks f (natBound c) p s)
    from funext fun s => funext fun p => completeStepJS_eq total tasks f c p s]
  rw [show launchLoopJS c tasks initState = launchLoop (natBound c) tasks initState
    from by simp only [launchLoopJS, launchLoop]; exact launchGoJS_eq c tasks _ _]

/-- C2 (amended): at every point of a run under an unchanging JS-number
concurrency `c`, the number of in-flight Gateway invocations is at most
`⌈c⌉` — the least integer at or above `c` — because the code's launch
test `inFlight < c` on an integer count holds exactly below `⌈c⌉` (and is
always false for NaN, so nothing launches).  For an integer `c` the bound
is `c` itself, but a fractional `c` admits `⌈c⌉ > c` invocations:
concurrency `2.5` launches a third invocation, and `3 ≤ 2.5` fails.  The
normalized concurrency for a raw numeric value `q` is `Math.max(1, q)` —
at least 1, but not necessarily an integer — while a falsy value defaults
to 2 and a truthy non-numeric value yields NaN. -/
theorem dispatcher_bounded_and_min_one :
    (∀ (total : Nat) (tasks : List (List Nat)) (f : Nat → GOutcome) (c : JNum)
        (picks : List Nat) (k : Nat),
      ((runDTraceJS total tasks f c picks).getD k initState).inFlight.length
        ≤ natBound c)
    ∧ (∀ (n : Nat) (q : ℚ), jsLtNum n (.val q) = true ↔ (n : ℚ) < q)
    ∧ (∀ n : Nat, jsLtNum n .nan = false)
    ∧ (launchLoopJS (.val (5 / 2)) (singletonTasks 4) initState).inFlight.length = 3
    ∧ ¬ ((3 : ℚ) ≤ 5 / 2)
    ∧ (∀ q : ℚ, normalizeConcurrency (.numV q) = .val (if q = 0 then 2 else max 1 q)
        ∧ (1 : ℚ) ≤ (if q = 0 then 2 else max 1 q))
    ∧ normalizeConcurrency .absentOrFalsy = .val 2
    ∧ normalizeConcurrency .nonNumeric = .nan := by
  refine ⟨?_, ?_, fun n => rfl, ?_, by norm_num, ?_, rfl, rfl⟩
  · intro total tasks f c picks k
    rw [runDTraceJS_eq]
    apply runTrace_bound_aux
    refine le_trans (launchLoop_bound (natBound c) tasks initState) ?_
    have h0 : initState.inFlight.length = 0 := rfl
    rw [h0]
    exact le_of_eq (max_eq_left (Nat.zero_le _))
  · intro n q
    simp [jsLtNum]
  · have hb : natBound (JNum.val (5 / 2)) = 3 := by
      simp only [natBound]
      rw [Nat.ceil_eq_iff (by norm_num)]
      norm_num
    have heq : launchLoopJS (JNum.val (5 / 2)) (singletonTasks 4) initState
        = launchLoop (natBound (JNum.val (5 / 2))) (singletonTasks 4) initState := by
      simp only [launchLoopJS, launchLoop]
      exact launchGoJS_eq _ _ _ _
    rw [heq, hb]
    decide
  · intro q
    by_cases hq : q = 0
    · subst hq
      exact ⟨by norm_num [normalizeConcurrency, jsMaxOne], by norm_num⟩
    · refine ⟨by simp [normalizeConcurrency, jsMaxOne, hq], ?_⟩
      rw [if_neg hq]
      exact le_max_left 1 q

/-- Witness for C2 (amended): the JS launch test at concurrency `2.5`
admits a third launch (`2 < 2.5`) and stops the fourth (`3 < 2.5`
fails). -/
theorem dispatcher_bounded_and_min_one_witness :
    jsLtNum 2 (.val (5 / 2)) = true ∧ ¬ jsLtNum 3 (.val (5 / 2)) = true := by
  constructor
  · exact (dispatcher_bounded_and_min_one.2.1 2 (5 / 2)).mpr (by norm_num)
  · intro h
    have h3 := (dispatcher_bounded_and_min_one.2.1 3 (5 / 2)).mp h
    norm_num at h3

/-- Counterexample for C8: the same request (three one-paragraph tasks,
initial concurrency 1) with the same completion schedule, differing only
in a `POST /api/config` concurrency update (to 3) applied after the first
completion, ends that step with 2 invocations in flight, while the run
without the update has 1 — the concurrency bound used mid-request is not
a request-start snapshot. -/
theorem config_snapshot_counterexample :
    (runVar 3 (singletonTasks 3) (fun _ => GOutcome.ok (fun _ => some "t")) 1
        [(3, 0)]).inFlight.length = 2
    ∧ (runVar 3 (singletonTasks 3) (fun _ => GOutcome.ok (fun _ => some "t")) 1
        [(1, 0)]).inFlight.length = 1
    ∧ (2 : Nat) ≠ 1 := by
  exact ⟨by decide, by decide, by decide⟩

/-- C8 (amended): the Dispatcher does not snapshot the configuration:
`launchNext` re-reads `CONFIG.OLLAMA_CONCURRENCY` on every call, so each
completion step bounds the in-flight count by the concurrency value
current at that step (never by more than the maximum of that value and
the count it inherited), and a single-step run after a configuration
update dispatches with the updated value, not the request-start one. -/
theorem config_reread_spec (total : Nat) (tasks : List (List Nat)) (f : Nat → GOutcome) :
    (∀ (C pick : Nat) (s : DState),
      (completeStep total tasks f C pick s).inFlight.length ≤ max C s.inFlight.length)
    ∧ (∀ (C₀ C₁ pick : Nat),
        runVar total tasks f C₀ [(C₁, pick)] =
          completeStep total tasks f C₁ pick (launchLoop C₀ tasks initState)) := by
  exact ⟨fun C pick s => completeStep_le_max total tasks f C pick s,
    fun C₀ C₁ pick => rfl⟩

end LGT
